import Mathlib

/-
Verification of the collection and persistence pipeline of the twit-db
repository (an Electron application archiving a Twitter likes feed).

The embedding below translates the persistence layer
(src/main/storage/db.ts) and the collection orchestrator
(src/main/collection/collector.ts) into pure Lean definitions.  The
SQLite database is modelled as explicit lists of rows; the browser, the
network and the filesystem are modelled as oracles supplied to the
pipeline (an Env record), so that one run of the pipeline is a pure
function from a store and an environment to a store.
-/

namespace TwitDB

/-- A row of the tweets table (db.ts, CREATE TABLE tweets).  Only the
columns that the verified claims touch are carried; the remaining text
columns (html, card data, metrics) do not influence any claim. -/
structure TweetRow where
  id : String
  like_order : Int
  is_thread_start : Bool
  thread_length : Nat
  deriving Repr, DecidableEq

/-- A row of the links table (db.ts, CREATE TABLE links): one link of a
tweet, keyed by the owning tweet id and the URL written for it. -/
structure LinkRow where
  tweet_id : String
  url : String
  deriving Repr, DecidableEq

/-- A row of the media table (db.ts, CREATE TABLE media). -/
structure MediaRow where
  tweet_id : String
  media_type : String
  original_url : String
  deriving Repr, DecidableEq

/-- A row of the thread_tweets table (db.ts, CREATE TABLE thread_tweets),
primary key (thread_id, tweet_id). -/
structure ThreadRow where
  thread_id : String
  tweet_id : String
  position : Nat
  deriving Repr, DecidableEq

/-- The durable store: the four tables owned by db.ts. -/
structure Store where
  tweets : List TweetRow
  links : List LinkRow
  media : List MediaRow
  threadTweets : List ThreadRow
  deriving Repr, DecidableEq

def emptyStore : Store := ⟨[], [], [], []⟩

/-- db.ts tweetExists: SELECT id FROM tweets WHERE id = ?. -/
def tweetExists (s : Store) (tweetId : String) : Bool :=
  s.tweets.any fun r => r.id = tweetId

/-- db.ts mediaExists: SELECT id FROM media WHERE tweet_id = ? AND
original_url = ?. -/
def mediaExists (s : Store) (tweetId originalUrl : String) : Bool :=
  s.media.any fun r => r.tweet_id = tweetId && r.original_url = originalUrl

/-- db.ts getHighestLikeOrder helper: SELECT MAX(like_order) FROM tweets,
as an optional maximum over the stored rows (none on an empty table). -/
def maxLikeOrder : List TweetRow → Option Int
  | [] => none
  | r :: rs =>
    match maxLikeOrder rs with
    | none => some r.like_order
    | some m => some (max r.like_order m)

/-- db.ts getHighestLikeOrder: (result.max_order, or -1 when the table is
empty) plus 1. -/
def getHighestLikeOrder (s : Store) : Int :=
  (match maxLikeOrder s.tweets with
   | none => -1
   | some m => m) + 1

/-- An extracted tweet record as produced by the page-side extraction in
collector.ts (the object literal returned for each article).  Fields not
used by any claim are dropped; links is the cleanLinks string list. -/
structure Tweet where
  id : String
  like_order : Int
  links : List String
  author : String
  conversation_id : String
  images : List String
  videos : List String
  gifs : List String
  deriving Repr, DecidableEq

/-- db.ts insertTweet, link loop: insert each link row in order; the
failAt oracle marks which link write (if any) raises an SQL error, which
models the fallibility of db.run inside the transaction.  Returns none
when a write fails. -/
def writeLinks (tweetId : String) (ls : List String) (failAt : Option Nat)
    (i : Nat) (s : Store) : Option Store :=
  match ls with
  | [] => some s
  | l :: rest =>
    if failAt = some i then none
    else writeLinks tweetId rest failAt (i + 1)
      { s with links := s.links ++ [⟨tweetId, l⟩] }

/-- db.ts insertTweet: BEGIN TRANSACTION; insert the tweet row; insert
every link row; COMMIT.  On any link-write error the transaction is
rolled back (ROLLBACK) and the original store is returned together with
false.  New tweet rows start with is_thread_start = 0 and
thread_length = 1 (the schema defaults). -/
def insertTweet (s : Store) (t : Tweet) (failAt : Option Nat) : Bool × Store :=
  let s1 : Store :=
    { s with tweets := s.tweets ++ [⟨t.id, t.like_order, false, 1⟩] }
  match writeLinks t.id t.links failAt 0 s1 with
  | some s2 => (true, s2)
  | none => (false, s)

/-- db.ts insertMedia: append one media row. -/
def insertMedia (s : Store) (tweetId mediaType originalUrl : String) : Store :=
  { s with media := s.media ++ [⟨tweetId, mediaType, originalUrl⟩] }

/-- db.ts insertThreadTweet: INSERT OR REPLACE INTO thread_tweets keyed
by (thread_id, tweet_id): any row with the same key is replaced. -/
def insertThreadTweet (s : Store) (threadId tweetId : String)
    (position : Nat) : Store :=
  { s with threadTweets :=
      (s.threadTweets.filter fun r =>
        !(r.thread_id = threadId && r.tweet_id = tweetId))
      ++ [⟨threadId, tweetId, position⟩] }

/-- db.ts updateThreadMetadata: UPDATE tweets SET is_thread_start = 1,
thread_length = ? WHERE id = ?. -/
def updateThreadMetadata (s : Store) (threadId : String) (len : Nat) : Store :=
  { s with tweets := s.tweets.map fun r =>
      if r.id = threadId then { r with is_thread_start := true, thread_length := len }
      else r }

/-- One entry of the media work queue of collector.ts
(the mediaItems array: tweetId, url, mediaType). -/
structure MediaItem where
  tweetId : String
  url : String
  mediaType : String
  deriving Repr, DecidableEq

/-- The shared stats object of processMediaItems in collector.ts. -/
structure MediaStats where
  total : Nat
  completed : Nat
  successful : Nat
  failed : Nat
  skipped : Nat
  deriving Repr, DecidableEq

/-- One result entry pushed by processMediaItems (success flag of the
results array; the attached Error object is not modelled). -/
structure MediaResult where
  success : Bool
  deriving Repr, DecidableEq

/-- collector.ts processMediaItems, loop body for one item: skip when
mediaExists, otherwise download and record; the dlFail oracle marks items
whose downloadMedia or insertMedia call throws (network timeout, fetch
error, storage error), which the catch block converts into a failed
result and a failed count. -/
def processMediaItem (dlFail : MediaItem → Bool)
    (acc : Store × List MediaResult × MediaStats) (item : MediaItem) :
    Store × List MediaResult × MediaStats :=
  let (s, results, stats) := acc
  if mediaExists s item.tweetId item.url then
    (s, results ++ [⟨true⟩],
     { stats with skipped := stats.skipped + 1, completed := stats.completed + 1 })
  else if dlFail item then
    (s, results ++ [⟨false⟩],
     { stats with failed := stats.failed + 1, completed := stats.completed + 1 })
  else
    (insertMedia s item.tweetId item.mediaType item.url, results ++ [⟨true⟩],
     { stats with successful := stats.successful + 1, completed := stats.completed + 1 })

/-- collector.ts processMediaItems: process the queued media items one at
a time, accumulating results and stats; a per-item failure is recorded
and the loop continues with the next item. -/
def processMediaItems (s : Store) (items : List MediaItem)
    (dlFail : MediaItem → Bool) : Store × List MediaResult × MediaStats :=
  items.foldl (processMediaItem dlFail)
    (s, [], ⟨items.length, 0, 0, 0, 0⟩)

/-- The two collection modes of collectLikes. -/
inductive Mode
  | incremental
  | historical
  deriving Repr, DecidableEq

/-- collector.ts: const maxScrolls = mode === historical ? 50 : 5. -/
def maxScrolls : Mode → Nat
  | .historical => 50
  | .incremental => 5

/-- collector.ts: const maxNoNewContentAttempts = 3. -/
def maxNoNewContentAttempts : Nat := 3

/-- Why the scroll loop of collectLikes stopped: the while condition
became false (max scroll count reached) or the no-new-content break
fired. -/
inductive StopReason
  | maxReached
  | stalled
  deriving Repr, DecidableEq

/-- collector.ts scroll loop, one iteration plus the rest: counts k is
the article count observed after the k-th scroll (the page.$$eval
length); scrollCount, prev (previousTweetCount) and noNew
(noNewContentCount) are the loop variables.  The fuel argument is the
number of iterations the while condition scrollCount < maxS still
permits (maxS - scrollCount); keeping it as a separate structural
argument makes the definition computable by reduction, and scrollLoop
below instantiates it with maxS so both exits coincide with the
source.  Returns the final scrollCount and the stop reason. -/
def scrollLoopGo (counts : Nat → Nat) (maxS : Nat) :
    Nat → Nat → Nat → Nat → Nat × StopReason
  | 0, scrollCount, _, _ => (scrollCount, .maxReached)
  | fuel + 1, scrollCount, prev, noNew =>
    if scrollCount < maxS then
      let sc := scrollCount + 1
      let c := counts sc
      if c = prev then
        if noNew + 1 ≥ maxNoNewContentAttempts then (sc, .stalled)
        else scrollLoopGo counts maxS fuel sc prev (noNew + 1)
      else scrollLoopGo counts maxS fuel sc c 0
    else (scrollCount, .maxReached)

/-- collector.ts scroll loop: previousTweetCount = 0, noNewContentCount =
0, scrollCount = 0, bound maxScrolls mode. -/
def scrollLoop (counts : Nat → Nat) (mode : Mode) : Nat × StopReason :=
  scrollLoopGo counts (maxScrolls mode) (maxScrolls mode) 0 0 0

/-- A post as it stands on the remote feed, before extraction assigns a
like_order: the per-article data that the page-side extraction code of
collector.ts reads from the DOM.  The batch list is already in the order
the extraction iterates it (the code reverses the on-screen article list
first, so index 0 here is the first element of reversedArticles). -/
structure RawPost where
  id : String
  links : List String
  author : String
  conversationId : String
  images : List String
  videos : List String
  gifs : List String
  deriving Repr, DecidableEq

/-- collector.ts: tweet.author.split(' ').pop()?.trim() || '' — the
handle used to filter thread members by author. -/
def handleOf (author : String) : String :=
  (((author.splitOn " ").getLast?).getD "").trim

/-- The environment of one collection run: the remote feed content and
the failure oracles for the network and the database.  A deterministic
Env models an unchanged remote feed across runs.
threadMembers gives, per conversation id and author handle, the ordered
list of (nonempty) thread-member tweet ids that the conversation-page
extraction returns after filtering by author; convFail1 and convFail2
mark conversation navigations that throw in the discovery pass and the
relationship pass respectively; fetch is the single-tweet page
extraction (none when the navigation or extraction throws); dlFail marks
media items whose download or insert throws; insertFail gives the
link-write failure point for insertTweet of a given tweet id. -/
structure Env where
  batch : List RawPost
  threadMembers : String → String → List String
  convFail1 : String → Bool
  convFail2 : String → Bool
  fetch : String → Option RawPost
  dlFail : MediaItem → Bool
  insertFail : String → Option Nat

/-- collector.ts extraction: the object built per reversed article; the
like_order assigned is now - index where now is Date.now() at extraction
time and index is the position in the reversed article list (the
startOrder parameter received from getHighestLikeOrder is not used). -/
def extractBatch (now : Int) (batch : List RawPost) : List Tweet :=
  batch.enum.map fun p =>
    ⟨p.2.id, now - p.1, p.2.links, p.2.author, p.2.conversationId,
     p.2.images, p.2.videos, p.2.gifs⟩

/-- collector.ts tweet insert loop, body for one extracted tweet: skip an
empty id; skip when tweetExists; otherwise insertTweet, and count it and
record it in newTweetIds only when the insert did not throw. -/
def insertStep (env : Env) (acc : Store × Nat × List String) (t : Tweet) :
    Store × Nat × List String :=
  let (st, cnt, newIds) := acc
  if t.id ≠ "" then
    if tweetExists st t.id then acc
    else
      let (ok, st2) := insertTweet st t (env.insertFail t.id)
      if ok then (st2, cnt + 1, newIds ++ [t.id]) else (st2, cnt, newIds)
  else acc

/-- collector.ts tweet insert loop over the whole extracted batch.
Returns (store, insertedCount, newTweetIds). -/
def insertPhase (env : Env) (ts : List Tweet) (s : Store) :
    Store × Nat × List String :=
  ts.foldl (insertStep env) (s, 0, [])

/-- JS Set.add on a list kept in insertion order. -/
def addUnique (l : List String) (x : String) : List String :=
  if l.contains x then l else l ++ [x]

/-- collector.ts thread pass 1 (discovery): for each extracted tweet with
a conversation id and an author, navigate to the conversation and add
every discovered member id to the threadTweetsToCollect set; a failed
navigation is caught and skips that conversation. -/
def collectSetPhase (env : Env) (ts : List Tweet) : List String :=
  ts.foldl
    (fun acc t =>
      if t.conversation_id ≠ "" && t.author ≠ "" then
        if env.convFail1 t.conversation_id then acc
        else (env.threadMembers t.conversation_id (handleOf t.author)).foldl addUnique acc
      else acc)
    []

/-- The media work queue built from one tweet: images, then videos, then
gifs, as collector.ts pushes them. -/
def mediaItemsOf (id : String) (images videos gifs : List String) :
    List MediaItem :=
  images.map (fun u => ⟨id, u, "image"⟩)
    ++ videos.map (fun u => ⟨id, u, "video"⟩)
    ++ gifs.map (fun u => ⟨id, u, "gif"⟩)

/-- The threadTweetData record the single-tweet page extraction builds in
collector.ts: no links, no conversation id, like_order = now - position
where position is the index of the requested id in the discovery set
plus one. -/
def fetchedTweet (now : Int) (colSet : List String) (r : String)
    (raw : RawPost) : Tweet :=
  ⟨raw.id, now - (((colSet.indexOf r) + 1 : Nat) : Int), [],
   raw.author, "", raw.images, raw.videos, raw.gifs⟩

/-- collector.ts thread pass 1 (fetch): for one member id r of
threadTweetsToCollect: if it already exists it is only added to
collectedThreadTweets; otherwise the single-tweet page is fetched, and
if the page yields a tweet whose id is not yet stored, that tweet is
inserted, added to collectedThreadTweets, and its media processed.  A
throwing fetch or insert is caught and leaves the member uncollected. -/
def threadFetchStep (env : Env) (now : Int) (colSet : List String)
    (acc : Store × List String) (r : String) : Store × List String :=
  let (s, collected) := acc
  if tweetExists s r then (s, addUnique collected r)
  else
    match env.fetch r with
    | none => (s, collected)
    | some raw =>
      if tweetExists s raw.id then (s, collected)
      else
        let td : Tweet := fetchedTweet now colSet r raw
        let (ok, s1) := insertTweet s td (env.insertFail td.id)
        if ok then
          let s2 := (processMediaItems s1
            (mediaItemsOf td.id raw.images raw.videos raw.gifs) env.dlFail).1
          (s2, addUnique collected td.id)
        else (s1, collected)

/-- collector.ts thread pass 1 (fetch), whole loop over the discovery
set. -/
def threadFetchPhase (env : Env) (now : Int) (colSet : List String)
    (s : Store) : Store × List String :=
  colSet.foldl (threadFetchStep env now colSet) (s, [])

/-- collector.ts thread pass 2: insert one thread_tweets row per member,
positions 1, 2, ... in discovered order. -/
def insertMembers (s : Store) (threadId : String) (members : List String) :
    Store :=
  members.enum.foldl
    (fun acc p => insertThreadTweet acc threadId p.2 (p.1 + 1)) s

/-- The member list the conversation-page extraction yields for one
extracted tweet: threadMembers applied to its conversation id and author
handle. -/
def membersOf (env : Env) (t : Tweet) : List String :=
  env.threadMembers t.conversation_id (handleOf t.author)

/-- collector.ts thread pass 2, one conversation: re-extract the member
list; when it has more than one member and every member is verified as
collected or persisted, write the thread metadata of the root (the liked
tweet) and all membership rows; otherwise write nothing for this
conversation. -/
def threadRelStep (env : Env) (collected : List String) (s : Store)
    (t : Tweet) : Store :=
  if t.conversation_id ≠ "" && t.author ≠ "" then
    if env.convFail2 t.conversation_id then s
    else
      let members := membersOf env t
      if members.length > 1 then
        if members.all fun m => collected.contains m || tweetExists s m then
          insertMembers (updateThreadMetadata s t.id members.length) t.id members
        else s
      else s
  else s

/-- collector.ts thread pass 2, whole loop. -/
def threadRelPhase (env : Env) (collected : List String) (ts : List Tweet)
    (s : Store) : Store :=
  ts.foldl (threadRelStep env collected) s

/-- collector.ts final media pass, queue construction: media items are
queued only for tweets whose id is in newTweetIds (tweets newly inserted
in this run). -/
def mediaQueue (newIds : List String) (ts : List Tweet) : List MediaItem :=
  ts.foldl
    (fun acc t =>
      if t.id ≠ "" && newIds.contains t.id then
        acc ++ mediaItemsOf t.id t.images t.videos t.gifs
      else acc)
    []

/-- collector.ts collectLikes, the store-facing part of one run after the
feed page is loaded: extraction (with like_order = now - index), the
tweet insert loop, both thread passes, and the final media pass.
Returns the final store and insertedCount. -/
def runPipeline (env : Env) (now : Int) (s : Store) : Store × Nat :=
  let _startingLikeOrder := getHighestLikeOrder s
  let ts := extractBatch now env.batch
  let (s1, inserted, newIds) := insertPhase env ts s
  let colSet := collectSetPhase env ts
  let (s2, collected) := threadFetchPhase env now colSet s1
  let s3 := threadRelPhase env collected ts s2
  let s4 := (processMediaItems s3 (mediaQueue newIds ts) env.dlFail).1
  (s4, inserted)

/-- The process-wide mutable state of collector.ts: the isCollecting
single-flight flag, whether currentBrowserContext holds an open browser,
and the store. -/
structure ProcState where
  isCollecting : Bool
  browserOpen : Bool
  store : Store

/-- Outcome of a collectLikes call. -/
inductive StartOutcome
  | rejected
  | completed
  | failed
  deriving Repr, DecidableEq

/-- collector.ts collectLikes, run lifecycle: the isCollecting guard
rejects a second start with no effect at all; otherwise the flag is set,
the browser session acquired and the run body executed.  The body from
launch to completion is abstracted into run (the store-facing pipeline)
and, for a body that throws partway, partialRun (the store writes made
before the throw); launchFail models a browser-launch failure before any
store write.  The catch block closes the browser context and the finally
block clears the flag on every path. -/
def collectLikes (ps : ProcState) (launchFail bodyFail : Bool)
    (run partialRun : Store → Store) : ProcState × StartOutcome :=
  if ps.isCollecting then (ps, .rejected)
  else if launchFail then (⟨false, false, ps.store⟩, .failed)
  else if bodyFail then (⟨false, false, partialRun ps.store⟩, .failed)
  else (⟨false, false, run ps.store⟩, .completed)

/-- The collection flag owned by index.ts (separate from the one in
collector.ts). -/
structure IpcState where
  ipcCollecting : Bool
  deriving Repr, DecidableEq

/-- index.ts stop-collection IPC handler: its body only sets the
index.ts-level isCollecting flag to false (the comment in the source
marks it as not fully implemented); nothing of the collector is
consulted or interrupted. -/
def stopCollectionHandler (st : IpcState) : IpcState :=
  { st with ipcCollecting := false }

/-! Properties of getHighestLikeOrder. -/

theorem maxLikeOrder_eq_none {l : List TweetRow} :
    maxLikeOrder l = none ↔ l = [] := by
  cases l with
  | nil => simp [maxLikeOrder]
  | cons r rs =>
    simp only [maxLikeOrder]
    cases maxLikeOrder rs <;> simp

theorem le_maxLikeOrder {l : List TweetRow} {m : Int}
    (h : maxLikeOrder l = some m) : ∀ t ∈ l, t.like_order ≤ m := by
  induction l generalizing m with
  | nil => intro t ht; simp at ht
  | cons r rs ih =>
    intro t ht
    simp only [maxLikeOrder] at h
    cases hrs : maxLikeOrder rs with
    | none =>
      rw [hrs] at h
      have : rs = [] := maxLikeOrder_eq_none.mp hrs
      subst this
      simp at ht
      subst ht
      simp at h
      omega
    | some m2 =>
      rw [hrs] at h
      simp at h
      rcases List.mem_cons.mp ht with h1 | h2
      · subst h1; omega
      · have := ih hrs t h2
        omega

theorem maxLikeOrder_mem {l : List TweetRow} {m : Int}
    (h : maxLikeOrder l = some m) : ∃ t ∈ l, t.like_order = m := by
  induction l generalizing m with
  | nil => simp [maxLikeOrder] at h
  | cons r rs ih =>
    simp only [maxLikeOrder] at h
    cases hrs : maxLikeOrder rs with
    | none =>
      rw [hrs] at h
      simp at h
      exact ⟨r, by simp, by omega⟩
    | some m2 =>
      rw [hrs] at h
      simp at h
      rcases le_or_lt m2 r.like_order with hle | hlt
      · refine ⟨r, by simp, ?_⟩
        omega
      · obtain ⟨t, ht, hv⟩ := ih hrs
        refine ⟨t, by simp [ht], ?_⟩
        omega

/-- Claim C10: getHighestLikeOrder returns one greater than the maximum
like_order among all stored tweets, and 0 when the tweets table is
empty; consequently its value is strictly greater than every like_order
already stored. -/
theorem getHighestLikeOrder_spec (s : Store) :
    (s.tweets = [] → getHighestLikeOrder s = 0)
    ∧ (∀ t ∈ s.tweets, t.like_order < getHighestLikeOrder s)
    ∧ (s.tweets ≠ [] → ∃ t ∈ s.tweets, getHighestLikeOrder s = t.like_order + 1) := by
  refine ⟨?_, ?_, ?_⟩
  · intro h
    simp [getHighestLikeOrder, maxLikeOrder_eq_none.mpr h]
  · intro t ht
    unfold getHighestLikeOrder
    cases hm : maxLikeOrder s.tweets with
    | none =>
      rw [maxLikeOrder_eq_none.mp hm] at ht
      simp at ht
    | some m =>
      have := le_maxLikeOrder hm t ht
      simp
      omega
  · intro h
    cases hm : maxLikeOrder s.tweets with
    | none => exact absurd (maxLikeOrder_eq_none.mp hm) h
    | some m =>
      obtain ⟨t, ht, hv⟩ := maxLikeOrder_mem hm
      exact ⟨t, ht, by simp [getHighestLikeOrder, hm, hv]⟩

/-- Witness for C10 on a concrete store. -/
theorem getHighestLikeOrder_spec_witness :
    ((⟨[⟨"1", 4, false, 1⟩, ⟨"2", 9, false, 1⟩], [], [], []⟩ : Store).tweets = [] →
      getHighestLikeOrder ⟨[⟨"1", 4, false, 1⟩, ⟨"2", 9, false, 1⟩], [], [], []⟩ = 0)
    ∧ (∀ t ∈ (⟨[⟨"1", 4, false, 1⟩, ⟨"2", 9, false, 1⟩], [], [], []⟩ : Store).tweets,
        t.like_order
          < getHighestLikeOrder ⟨[⟨"1", 4, false, 1⟩, ⟨"2", 9, false, 1⟩], [], [], []⟩)
    ∧ ((⟨[⟨"1", 4, false, 1⟩, ⟨"2", 9, false, 1⟩], [], [], []⟩ : Store).tweets ≠ [] →
        ∃ t ∈ (⟨[⟨"1", 4, false, 1⟩, ⟨"2", 9, false, 1⟩], [], [], []⟩ : Store).tweets,
          getHighestLikeOrder ⟨[⟨"1", 4, false, 1⟩, ⟨"2", 9, false, 1⟩], [], [], []⟩
            = t.like_order + 1) :=
  getHighestLikeOrder_spec _

/-! Properties of insertTweet (transactionality). -/

theorem writeLinks_tweets (tweetId : String) (ls : List String)
    (failAt : Option Nat) : ∀ (i : Nat) (s s2 : Store),
    writeLinks tweetId ls failAt i s = some s2 →
    s2.tweets = s.tweets ∧ s2.media = s.media
      ∧ s2.threadTweets = s.threadTweets
      ∧ s2.links = s.links ++ ls.map fun l => ⟨tweetId, l⟩ := by
  induction ls with
  | nil =>
    intro i s s2 h
    simp [writeLinks] at h
    subst h
    simp
  | cons l rest ih =>
    intro i s s2 h
    simp only [writeLinks] at h
    by_cases hf : failAt = some i
    · simp [hf] at h
    · rw [if_neg hf] at h
      obtain ⟨h1, h2, h3, h4⟩ := ih (i + 1) _ s2 h
      refine ⟨h1, h2, h3, ?_⟩
      simp at h4
      simp [h4]

theorem writeLinks_none_iff (tweetId : String) (ls : List String)
    (failAt : Option Nat) : ∀ (i : Nat) (s : Store),
    writeLinks tweetId ls failAt i s = none
      ↔ ∃ j, failAt = some j ∧ i ≤ j ∧ j < i + ls.length := by
  induction ls with
  | nil =>
    intro i s
    constructor
    · intro h; simp [writeLinks] at h
    · rintro ⟨j, hj, hij, hub⟩
      simp at hub
      omega
  | cons l rest ih =>
    intro i s
    simp only [writeLinks]
    by_cases hf : failAt = some i
    · constructor
      · intro _
        exact ⟨i, hf, le_refl i, by simp⟩
      · intro _
        simp [hf]
    · rw [if_neg hf]
      rw [ih (i + 1)]
      simp only [List.length_cons]
      constructor
      · rintro ⟨j, hj, hij, hub⟩
        exact ⟨j, hj, by omega, by omega⟩
      · rintro ⟨j, hj, hij, hub⟩
        refine ⟨j, hj, ?_, by omega⟩
        rcases Nat.eq_or_lt_of_le hij with he | hl
        · exact absurd (by rw [hj, he]) hf
        · omega

/-- Claim C2: insertTweet writes the post row and all of its link rows in
a single transaction: on success the store gains exactly the post row
and every link row in order; if any link-row write fails the transaction
is rolled back and the store is returned exactly as it was; and the
insert fails precisely when some link write in range fails. -/
theorem insertTweet_transactional (s : Store) (t : Tweet) (failAt : Option Nat) :
    ((insertTweet s t failAt).1 = true →
      (insertTweet s t failAt).2.tweets = s.tweets ++ [⟨t.id, t.like_order, false, 1⟩]
      ∧ (insertTweet s t failAt).2.links = s.links ++ t.links.map (fun l => ⟨t.id, l⟩)
      ∧ (insertTweet s t failAt).2.media = s.media
      ∧ (insertTweet s t failAt).2.threadTweets = s.threadTweets)
    ∧ ((insertTweet s t failAt).1 = false → (insertTweet s t failAt).2 = s)
    ∧ ((insertTweet s t failAt).1 = false
        ↔ ∃ j, failAt = some j ∧ j < t.links.length) := by
  simp only [insertTweet]
  split
  next s2 hw =>
    obtain ⟨h1, h2, h3, h4⟩ := writeLinks_tweets t.id t.links failAt 0 _ s2 hw
    refine ⟨fun _ => ⟨by simpa using h1, by simpa using h4, by simpa using h2,
      by simpa using h3⟩, fun h => by simp at h, ?_⟩
    constructor
    · intro h; simp at h
    · rintro ⟨j, hj, hub⟩
      have hn : writeLinks t.id t.links failAt 0
          { s with tweets := s.tweets ++ [⟨t.id, t.like_order, false, 1⟩] } = none :=
        (writeLinks_none_iff t.id t.links failAt 0 _).mpr ⟨j, hj, by omega, by omega⟩
      rw [hw] at hn
      exact absurd hn (by simp)
  next hw =>
    refine ⟨fun h => by simp at h, fun _ => rfl, ?_⟩
    have := (writeLinks_none_iff t.id t.links failAt 0 _).mp hw
    constructor
    · intro _
      obtain ⟨j, hj, _, hub⟩ := this
      exact ⟨j, hj, by omega⟩
    · intro _; rfl

/-- Witness for C2: a concrete mid-transaction link failure rolled
back. -/
theorem insertTweet_transactional_witness :
    ((insertTweet ⟨[⟨"9", 1, false, 1⟩], [⟨"9", "w"⟩], [], []⟩
        ⟨"5", 7, ["a", "b"], "A @a", "5", [], [], []⟩ (some 1)).1 = false →
      (insertTweet ⟨[⟨"9", 1, false, 1⟩], [⟨"9", "w"⟩], [], []⟩
        ⟨"5", 7, ["a", "b"], "A @a", "5", [], [], []⟩ (some 1)).2
        = ⟨[⟨"9", 1, false, 1⟩], [⟨"9", "w"⟩], [], []⟩)
    ∧ ((insertTweet ⟨[⟨"9", 1, false, 1⟩], [⟨"9", "w"⟩], [], []⟩
        ⟨"5", 7, ["a", "b"], "A @a", "5", [], [], []⟩ (some 1)).1 = false
        ↔ ∃ j, (some 1 : Option Nat) = some j
            ∧ j < (⟨"5", 7, ["a", "b"], "A @a", "5", [], [], []⟩ : Tweet).links.length) :=
  ⟨(insertTweet_transactional _ _ _).2.1, (insertTweet_transactional _ _ _).2.2⟩

/-! Properties of the scroll loop. -/

/-- The article count the loop has last observed after k scrolls: 0
before any scroll (previousTweetCount starts at 0), counts k after the
k-th scroll. -/
def obs (counts : Nat → Nat) : Nat → Nat
  | 0 => 0
  | k + 1 => counts (k + 1)

/-- Scrolls k-2, k-1 and k each observed no change against the previous
observation: three consecutive scrolls with no new content. -/
def stallWindow (counts : Nat → Nat) (k : Nat) : Prop :=
  obs counts k = obs counts (k - 1)
  ∧ obs counts (k - 1) = obs counts (k - 2)
  ∧ obs counts (k - 2) = obs counts (k - 3)

/-- The no-new-content stop condition fires at scroll k. -/
def stallAt (counts : Nat → Nat) (k : Nat) : Prop :=
  3 ≤ k ∧ stallWindow counts k

theorem scrollLoopGo_char (counts : Nat → Nat) (maxS : Nat) :
    ∀ (fuel sc prev noNew : Nat),
      fuel = maxS - sc → sc ≤ maxS →
      prev = obs counts sc →
      noNew ≤ 2 → noNew ≤ sc →
      (1 ≤ noNew → obs counts sc = obs counts (sc - 1)) →
      (2 ≤ noNew → obs counts (sc - 1) = obs counts (sc - 2)) →
      (noNew = 0 → 1 ≤ sc → obs counts sc ≠ obs counts (sc - 1)) →
      (noNew = 1 → 2 ≤ sc → obs counts (sc - 1) ≠ obs counts (sc - 2)) →
      (∀ k, 3 ≤ k → k ≤ sc → ¬ stallWindow counts k) →
      sc ≤ (scrollLoopGo counts maxS fuel sc prev noNew).1
      ∧ (scrollLoopGo counts maxS fuel sc prev noNew).1 ≤ maxS
      ∧ ((scrollLoopGo counts maxS fuel sc prev noNew).2 = StopReason.maxReached →
          (scrollLoopGo counts maxS fuel sc prev noNew).1 = maxS
          ∧ ∀ k, 3 ≤ k → k ≤ maxS → ¬ stallWindow counts k)
      ∧ ((scrollLoopGo counts maxS fuel sc prev noNew).2 = StopReason.stalled →
          stallAt counts (scrollLoopGo counts maxS fuel sc prev noNew).1
          ∧ ∀ k, 3 ≤ k → k < (scrollLoopGo counts maxS fuel sc prev noNew).1 →
              ¬ stallWindow counts k) := by
  intro fuel
  induction fuel with
  | zero =>
    intro sc prev noNew hfe hle _ _ _ _ _ _ _ hD
    have hsc : sc = maxS := by omega
    simp only [scrollLoopGo]
    subst hsc
    refine ⟨le_refl _, le_refl _, fun _ => ⟨rfl, hD⟩, fun h => by simp at h⟩
  | succ fuel ih =>
    intro sc prev noNew hfe hle hprev hn2 hnsc hC1 hC2 hE0 hE1 hD
    have hlt : sc < maxS := by omega
    simp only [scrollLoopGo, if_pos hlt]
    have hobs : obs counts (sc + 1) = counts (sc + 1) := rfl
    by_cases hc : counts (sc + 1) = prev
    · rw [if_pos hc]
      have hnew : obs counts (sc + 1) = obs counts sc := by
        rw [hobs, hc, hprev]
      by_cases hb : noNew + 1 ≥ maxNoNewContentAttempts
      · rw [if_pos hb]
        have hn : noNew = 2 := by
          simp [maxNoNewContentAttempts] at hb
          omega
        subst hn
        have hsc2 : 2 ≤ sc := hnsc
        refine ⟨by omega, by omega, fun h => by simp at h, fun _ => ?_⟩
        have hw : stallWindow counts (sc + 1) := by
          refine ⟨?_, ?_, ?_⟩
          · have h1 : sc + 1 - 1 = sc := by omega
            rw [h1]; exact hnew
          · have h1 : sc + 1 - 1 = sc := by omega
            have h2 : sc + 1 - 2 = sc - 1 := by omega
            rw [h1, h2]; exact hC1 (by omega)
          · have h2 : sc + 1 - 2 = sc - 1 := by omega
            have h3 : sc + 1 - 3 = sc - 2 := by omega
            rw [h2, h3]; exact hC2 (by omega)
        exact ⟨⟨by omega, hw⟩, fun k h3k hk => hD k h3k (by omega)⟩
      · rw [if_neg hb]
        have hnn : noNew ≤ 1 := by
          simp [maxNoNewContentAttempts] at hb
          omega
        have hD2 : ∀ k, 3 ≤ k → k ≤ sc + 1 → ¬ stallWindow counts k := by
          intro k h3k hk
          rcases Nat.lt_or_ge k (sc + 1) with hlt2 | hge
          · exact hD k h3k (by omega)
          · have hk1 : k = sc + 1 := by omega
            subst hk1
            rintro ⟨w1, w2, w3⟩
            have h1 : sc + 1 - 1 = sc := by omega
            have h2 : sc + 1 - 2 = sc - 1 := by omega
            have h3 : sc + 1 - 3 = sc - 2 := by omega
            rw [h1, h2] at w2
            rw [h2, h3] at w3
            interval_cases noNew
            · exact hE0 rfl (by omega) w2
            · exact hE1 rfl (by omega) w3
        have := ih (sc + 1) prev (noNew + 1) (by omega) (by omega)
          (by rw [hprev, hnew])
          (by omega) (by omega)
          (fun _ => by
            have h1 : sc + 1 - 1 = sc := by omega
            rw [h1]; exact hnew)
          (fun h => by
            have h1 : sc + 1 - 1 = sc := by omega
            have h2 : sc + 1 - 2 = sc - 1 := by omega
            rw [h1, h2]; exact hC1 (by omega))
          (fun h => by omega)
          (fun h h2sc => by
            have h1 : sc + 1 - 1 = sc := by omega
            have h2 : sc + 1 - 2 = sc - 1 := by omega
            rw [h1, h2]; exact hE0 (by omega) (by omega))
          hD2
        exact ⟨by omega, this.2.1, this.2.2.1, this.2.2.2⟩
    · rw [if_neg hc]
      have hne : obs counts (sc + 1) ≠ obs counts sc := by
        rw [hobs, hprev] at *
        exact fun h => hc (by rw [h, hprev])
      have hD2 : ∀ k, 3 ≤ k → k ≤ sc + 1 → ¬ stallWindow counts k := by
        intro k h3k hk
        rcases Nat.lt_or_ge k (sc + 1) with hlt2 | hge
        · exact hD k h3k (by omega)
        · have hk1 : k = sc + 1 := by omega
          subst hk1
          rintro ⟨w1, _, _⟩
          have h1 : sc + 1 - 1 = sc := by omega
          rw [h1] at w1
          exact hne w1
      have := ih (sc + 1) (counts (sc + 1)) 0 (by omega) (by omega)
        hobs.symm (by omega) (by omega)
        (fun h => by omega) (fun h => by omega)
        (fun _ h1sc => by
          have h1 : sc + 1 - 1 = sc := by omega
          rw [h1]; exact hne)
        (fun h => by omega)
        hD2
      exact ⟨by omega, this.2.1, this.2.2.1, this.2.2.2⟩

/-- Claim C8: the feed scroll loop always terminates (it is a total
function of the observed counts), and it stops exactly at the
mode-specific maximum scroll count (5 incremental, 50 historical) or at
the first scroll after which no new content has been observed for 3
consecutive scrolls, whichever comes first. -/
theorem scroll_loop_stop (counts : Nat → Nat) (mode : Mode) :
    maxScrolls Mode.incremental = 5
    ∧ maxScrolls Mode.historical = 50
    ∧ (scrollLoop counts mode).1 ≤ maxScrolls mode
    ∧ ((scrollLoop counts mode).2 = StopReason.maxReached
        ∨ (scrollLoop counts mode).2 = StopReason.stalled)
    ∧ ((scrollLoop counts mode).2 = StopReason.maxReached ↔
        ∀ k, stallAt counts k → maxScrolls mode < k)
    ∧ ((scrollLoop counts mode).2 = StopReason.stalled →
        stallAt counts (scrollLoop counts mode).1
        ∧ ∀ k, stallAt counts k → (scrollLoop counts mode).1 ≤ k)
    ∧ ((scrollLoop counts mode).2 = StopReason.maxReached →
        (scrollLoop counts mode).1 = maxScrolls mode) := by
  have h := scrollLoopGo_char counts (maxScrolls mode) (maxScrolls mode) 0 0 0
    (by omega) (by omega) rfl (by omega) (by omega)
    (fun h => by omega) (fun h => by omega)
    (fun _ h1 => by omega) (fun h => by omega)
    (fun k h3k hk => by omega)
  have heq : scrollLoopGo counts (maxScrolls mode) (maxScrolls mode) 0 0 0
      = scrollLoop counts mode := rfl
  rw [heq] at h
  obtain ⟨hlo, hhi, hmax, hst⟩ := h
  refine ⟨rfl, rfl, hhi, ?_, ?_, ?_, fun hr => (hmax hr).1⟩
  · cases hr : (scrollLoop counts mode).2
    · exact Or.inl rfl
    · exact Or.inr rfl
  · constructor
    · intro hr k hk
      have := (hmax hr).2 k hk.1
      by_contra hcon
      exact this (by omega) hk.2
    · intro hall
      cases hr : (scrollLoop counts mode).2 with
      | maxReached => rfl
      | stalled =>
        obtain ⟨hsa, _⟩ := hst hr
        have := hall _ hsa
        omega
  · intro hr
    exact ⟨(hst hr).1, fun k hk => by
      by_contra hcon
      exact (hst hr).2 k hk.1 (by omega) hk.2⟩

/-- Witness for C8 at a concrete feed: a constant count stalls after 3
scrolls; a strictly growing count runs to the incremental bound 5. -/
theorem scroll_loop_stop_witness :
    (scrollLoop (fun _ => 0) Mode.incremental).1 ≤ maxScrolls Mode.incremental
    ∧ scrollLoop (fun _ => 0) Mode.incremental = (3, StopReason.stalled)
    ∧ scrollLoop (fun k => k) Mode.incremental = (5, StopReason.maxReached) :=
  ⟨(scroll_loop_stop (fun _ => 0) Mode.incremental).2.2.1, by decide, by decide⟩

/-! Single-flight guard and run lifecycle. -/

/-- Claim C6: at most one collection run is active per process — a start
while isCollecting is set returns immediately with no effect on any
state; and every accepted run, whether it completes or fails at any
stage (browser launch or any later stage), ends with the single-flight
flag cleared (so a subsequent start is accepted) and the browser session
released. -/
theorem collectLikes_single_flight (ps : ProcState) (launchFail bodyFail : Bool)
    (run partialRun : Store → Store) :
    (ps.isCollecting = true →
      collectLikes ps launchFail bodyFail run partialRun = (ps, StartOutcome.rejected))
    ∧ (ps.isCollecting = false →
      (collectLikes ps launchFail bodyFail run partialRun).1.isCollecting = false
      ∧ (collectLikes ps launchFail bodyFail run partialRun).1.browserOpen = false
      ∧ (collectLikes ps launchFail bodyFail run partialRun).2 ≠ StartOutcome.rejected) := by
  unfold collectLikes
  constructor
  · intro h
    rw [if_pos h]
  · intro h
    rw [if_neg (by simp [h])]
    cases launchFail <;> cases bodyFail <;> simp

/-- Witness for C6: a busy process rejects a second start unchanged; an
accepted run that fails mid-body still clears the flag and releases the
browser. -/
theorem collectLikes_single_flight_witness :
    ((⟨true, true, emptyStore⟩ : ProcState).isCollecting = true
      ∧ collectLikes ⟨true, true, emptyStore⟩ false false id id
          = (⟨true, true, emptyStore⟩, StartOutcome.rejected))
    ∧ ((⟨false, false, emptyStore⟩ : ProcState).isCollecting = false
      ∧ (collectLikes ⟨false, false, emptyStore⟩ false true id id).1.isCollecting = false
      ∧ (collectLikes ⟨false, false, emptyStore⟩ false true id id).1.browserOpen = false
      ∧ (collectLikes ⟨false, false, emptyStore⟩ false true id id).2 ≠ StartOutcome.rejected) :=
  ⟨⟨rfl, (collectLikes_single_flight ⟨true, true, emptyStore⟩ false false id id).1 rfl⟩,
   ⟨rfl, (collectLikes_single_flight ⟨false, false, emptyStore⟩ false true id id).2 rfl⟩⟩

/-- Claim C9 (refuting evidence): the stop-collection IPC handler only
clears the index.ts flag — it passes nothing to the collector — and the
collector scroll loop takes no stop input at all, so a historical run
over a steadily growing feed performs all 50 scrolls however early a
stop was requested: the stop request is not checked at each pagination
iteration. -/
theorem stop_request_ignored :
    stopCollectionHandler ⟨true⟩ = ⟨false⟩
    ∧ scrollLoop (fun k => k) Mode.historical = (50, StopReason.maxReached) :=
  ⟨rfl, by decide⟩

/-! The media dedup check under interleaved concurrent invocations. -/

/-- Program counter of one in-flight invocation of the per-item
download-and-record protocol of collector.ts: before the mediaExists
check, after a passed check and completed download (about to call
insertMedia), and finished. -/
inductive DlPhase
  | ready
  | fetched
  | done
  deriving Repr, DecidableEq

/-- One atomic database step of the per-item protocol: ready performs the
mediaExists check (skipping when the row exists), fetched performs
insertMedia. -/
def dlStep (item : MediaItem) (s : Store) (ph : DlPhase) : Store × DlPhase :=
  match ph with
  | .ready => if mediaExists s item.tweetId item.url then (s, .done) else (s, .fetched)
  | .fetched => (insertMedia s item.tweetId item.mediaType item.url, .done)
  | .done => (s, .done)

/-- Two concurrent invocations of the per-item protocol for the same
item, interleaved according to sched (true picks the first invocation,
false the second). -/
def interleaveTwo (item : MediaItem) (sched : List Bool) (s : Store) : Store :=
  (sched.foldl
    (fun (acc : Store × DlPhase × DlPhase) pick =>
      let (st, a, b) := acc
      if pick then
        let (st2, a2) := dlStep item st a
        (st2, a2, b)
      else
        let (st2, b2) := dlStep item st b
        (st2, a, b2))
    (s, DlPhase.ready, DlPhase.ready)).1

/-- Number of media rows recorded for the pair (tweet id, origin URL). -/
def countMedia (s : Store) (tid url : String) : Nat :=
  (s.media.filter fun r => r.tweet_id = tid && r.original_url = url).length

/-- No two media rows share the same (tweet id, origin URL) pair. -/
def NoDupMedia (s : Store) : Prop :=
  s.media.Pairwise fun a b =>
    ¬(a.tweet_id = b.tweet_id ∧ a.original_url = b.original_url)

/-- Claim C4 (counterexample): when the check-then-insert protocol is
invoked twice concurrently for the same (post, origin URL) tuple and the
two existence checks interleave before either insert, the store ends up
with two media rows for the tuple — the schema index on
(tweet_id, original_url) is not UNIQUE, so nothing blocks the second
insert. -/
theorem concurrent_media_dup :
    countMedia
      (interleaveTwo ⟨"t1", "u1", "image"⟩ [true, false, true, false] emptyStore)
      "t1" "u1" = 2 := by decide

theorem mediaExists_false_iff (s : Store) (tid url : String) :
    mediaExists s tid url = false
      ↔ ∀ r ∈ s.media, ¬(r.tweet_id = tid ∧ r.original_url = url) := by
  unfold mediaExists
  rw [List.any_eq_false]
  constructor
  · intro h r hr
    have := h r hr
    simp at this
    intro hc
    exact absurd hc.2 (this hc.1)
  · intro h r hr
    have := h r hr
    simp
    intro h1 h2
    exact this ⟨h1, h2⟩

/-- Claim C4 (amended): under sequential processing — any number of
re-runs of processMediaItems, each running to completion — the store
never acquires two media rows with the same (post, origin URL) pair,
because every insert is guarded by the mediaExists check. -/
theorem processMediaItems_no_dup (s : Store) (items : List MediaItem)
    (dlFail : MediaItem → Bool) (h : NoDupMedia s) :
    NoDupMedia (processMediaItems s items dlFail).1 := by
  unfold processMediaItems
  suffices hgen : ∀ (its : List MediaItem) (acc : Store × List MediaResult × MediaStats),
      NoDupMedia acc.1 → NoDupMedia (its.foldl (processMediaItem dlFail) acc).1 by
    exact hgen items _ h
  intro its
  induction its with
  | nil => intro acc hacc; exact hacc
  | cons it rest ih =>
    intro acc hacc
    simp only [List.foldl_cons]
    apply ih
    obtain ⟨st, results, stats⟩ := acc
    by_cases hex : mediaExists st it.tweetId it.url
    · simpa [processMediaItem, hex] using hacc
    · by_cases hf : dlFail it
      · simpa [processMediaItem, hex, hf] using hacc
      · simp only [processMediaItem, hex, hf, Bool.false_eq_true, if_false, if_neg]
        unfold NoDupMedia insertMedia at *
        simp only [List.pairwise_append]
        refine ⟨hacc, List.Pairwise.cons (by simp) List.Pairwise.nil, ?_⟩
        intro a ha b hb
        simp at hb
        subst hb
        have := (mediaExists_false_iff st it.tweetId it.url).mp
          (by simpa using hex) a ha
        simpa using this

/-- Witness for the amended C4 on a concrete duplicate-free store and a
batch that repeats an already recorded tuple. -/
theorem processMediaItems_no_dup_witness :
    NoDupMedia (⟨[], [], [⟨"t1", "image", "u1"⟩], []⟩ : Store)
    ∧ NoDupMedia (processMediaItems ⟨[], [], [⟨"t1", "image", "u1"⟩], []⟩
        [⟨"t1", "u1", "image"⟩, ⟨"t1", "u2", "image"⟩] (fun _ => false)).1 :=
  ⟨by simp [NoDupMedia], processMediaItems_no_dup _ _ _ (by simp [NoDupMedia])⟩

/-! Media failure isolation. -/

theorem mediaExists_insertMedia (s : Store) (tid mt url t u : String) :
    mediaExists (insertMedia s tid mt url) t u
      = (mediaExists s t u || (tid = t && url = u)) := by
  unfold mediaExists insertMedia
  simp [List.any_append]

theorem length_filter_not {α : Type} (p : α → Bool) (l : List α) :
    (l.filter p).length + (l.filter fun x => !p x).length = l.length := by
  induction l with
  | nil => rfl
  | cons a l ih =>
    by_cases h : p a <;> simp [List.filter_cons, h] <;> omega

theorem processMediaItems_go_char (dlFail : MediaItem → Bool) :
    ∀ (items : List MediaItem) (s : Store) (results : List MediaResult)
      (stats : MediaStats),
      (∀ it ∈ items, mediaExists s it.tweetId it.url = false) →
      items.Pairwise (fun a b => ¬(a.tweetId = b.tweetId ∧ a.url = b.url)) →
      ((items.foldl (processMediaItem dlFail) (s, results, stats)).2.1.length
          = results.length + items.length)
      ∧ ((items.foldl (processMediaItem dlFail) (s, results, stats)).2.2.failed
          = stats.failed + (items.filter fun it => dlFail it).length)
      ∧ ((items.foldl (processMediaItem dlFail) (s, results, stats)).2.2.successful
          = stats.successful + (items.filter fun it => !dlFail it).length)
      ∧ ((items.foldl (processMediaItem dlFail) (s, results, stats)).2.2.skipped
          = stats.skipped)
      ∧ (((items.foldl (processMediaItem dlFail) (s, results, stats)).2.1.filter
            fun x => x.success).length
          = (results.filter fun x => x.success).length
            + (items.filter fun it => !dlFail it).length) := by
  intro items
  induction items with
  | nil =>
    intro s results stats _ _
    simp
  | cons a rest ih =>
    intro s results stats hfresh hdist
    have hexa : mediaExists s a.tweetId a.url = false := hfresh a (by simp)
    simp only [List.foldl_cons]
    by_cases hf : dlFail a
    · have hstep : processMediaItem dlFail (s, results, stats) a
          = (s, results ++ [⟨false⟩],
             { stats with failed := stats.failed + 1, completed := stats.completed + 1 }) := by
        simp [processMediaItem, hexa, hf]
      rw [hstep]
      obtain ⟨h1, h2, h3, h4, h5⟩ := ih s (results ++ [⟨false⟩])
        { stats with failed := stats.failed + 1, completed := stats.completed + 1 }
        (fun it hit => hfresh it (by simp [hit]))
        (List.Pairwise.sublist (List.sublist_cons_self a rest) hdist)
      refine ⟨?_, ?_, ?_, ?_, ?_⟩
      · rw [h1]; simp; omega
      · rw [h2]; simp [List.filter_cons, hf]; omega
      · rw [h3]; simp [List.filter_cons, hf]
      · rw [h4]
      · rw [h5]; simp [List.filter_cons, hf]
    · have hstep : processMediaItem dlFail (s, results, stats) a
          = (insertMedia s a.tweetId a.mediaType a.url, results ++ [⟨true⟩],
             { stats with successful := stats.successful + 1,
                          completed := stats.completed + 1 }) := by
        simp [processMediaItem, hexa, hf]
      rw [hstep]
      have hfresh2 : ∀ it ∈ rest,
          mediaExists (insertMedia s a.tweetId a.mediaType a.url) it.tweetId it.url
            = false := by
        intro it hit
        rw [mediaExists_insertMedia]
        have h1 := hfresh it (by simp [hit])
        have h2 := (List.pairwise_cons.mp hdist).1 it hit
        simp [h1]
        intro he
        exact fun hu => h2 ⟨he, hu⟩
      obtain ⟨h1, h2, h3, h4, h5⟩ := ih _ (results ++ [⟨true⟩])
        { stats with successful := stats.successful + 1, completed := stats.completed + 1 }
        hfresh2
        (List.Pairwise.sublist (List.sublist_cons_self a rest) hdist)
      refine ⟨?_, ?_, ?_, ?_, ?_⟩
      · rw [h1]; simp; omega
      · rw [h2]; simp [List.filter_cons, hf]
      · rw [h3]; simp [List.filter_cons, hf]; omega
      · rw [h4]
      · rw [h5]; simp [List.filter_cons, hf]; omega

/-- Claim C7: in a batch of fresh, pairwise-distinct media items of which
exactly one fails (its download or record throws, for example a fetch
timeout), the loop records the failure and continues: the run completes
with one result per item, a failed stat of 1, and all remaining items
successful or skipped. -/
theorem media_failure_isolation (s : Store) (items : List MediaItem)
    (dlFail : MediaItem → Bool)
    (hfresh : ∀ it ∈ items, mediaExists s it.tweetId it.url = false)
    (hdist : (items.map fun it => (it.tweetId, it.url)).Nodup)
    (hone : (items.filter fun it => dlFail it).length = 1) :
    (processMediaItems s items dlFail).2.1.length = items.length
    ∧ (processMediaItems s items dlFail).2.2.failed = 1
    ∧ ((processMediaItems s items dlFail).2.1.filter fun x => x.success).length + 1
        = items.length
    ∧ (processMediaItems s items dlFail).2.2.successful
        + (processMediaItems s items dlFail).2.2.skipped + 1 = items.length := by
  have hpw : items.Pairwise fun a b => ¬(a.tweetId = b.tweetId ∧ a.url = b.url) := by
    rw [List.Nodup, List.pairwise_map] at hdist
    exact hdist.imp fun h hc => h (by rw [hc.1, hc.2])
  have hsum := length_filter_not (fun it => dlFail it) items
  obtain ⟨h1, h2, h3, h4, h5⟩ :=
    processMediaItems_go_char dlFail items s [] ⟨items.length, 0, 0, 0, 0⟩ hfresh hpw
  unfold processMediaItems
  refine ⟨by rw [h1]; simp, by rw [h2]; simp [hone], ?_, ?_⟩
  · rw [h5]; simp; omega
  · rw [h3, h4]; simp; omega

/-- Witness for C7: five queued items, the third times out; 4 succeed, 1
is failed, all five produce results. -/
theorem media_failure_isolation_witness :
    (∀ it ∈ ([⟨"t", "u1", "image"⟩, ⟨"t", "u2", "image"⟩, ⟨"t", "u3", "image"⟩,
        ⟨"t", "u4", "image"⟩, ⟨"t", "u5", "image"⟩] : List MediaItem),
      mediaExists emptyStore it.tweetId it.url = false)
    ∧ (processMediaItems emptyStore
        [⟨"t", "u1", "image"⟩, ⟨"t", "u2", "image"⟩, ⟨"t", "u3", "image"⟩,
         ⟨"t", "u4", "image"⟩, ⟨"t", "u5", "image"⟩]
        (fun it => it.url = "u3")).2.2.failed = 1 :=
  ⟨by decide,
   (media_failure_isolation emptyStore _ _ (by decide) (by decide) (by decide)).2.1⟩

/-! Thread all-or-nothing. -/

theorem mem_insertThreadTweet_self (s : Store) (tid mid : String) (pos : Nat) :
    (⟨tid, mid, pos⟩ : ThreadRow) ∈ (insertThreadTweet s tid mid pos).threadTweets := by
  simp [insertThreadTweet]

theorem mem_insertThreadTweet_of_ne (s : Store) (tid mid : String) (pos : Nat)
    (r : ThreadRow) (hr : r ∈ s.threadTweets)
    (hne : ¬(r.thread_id = tid ∧ r.tweet_id = mid)) :
    r ∈ (insertThreadTweet s tid mid pos).threadTweets := by
  simp only [insertThreadTweet, List.mem_append]
  left
  refine List.mem_filter.mpr ⟨hr, ?_⟩
  simp only [Bool.not_eq_true']
  rw [Bool.and_eq_false_iff]
  by_cases h1 : r.thread_id = tid
  · right
    simp only [decide_eq_false_iff_not]
    exact fun h2 => hne ⟨h1, h2⟩
  · left
    simp only [decide_eq_false_iff_not]
    exact h1

theorem foldInsert_mem_of_ne (tid : String) (ps : List (Nat × String)) :
    ∀ (s : Store) (r : ThreadRow), r ∈ s.threadTweets →
      (∀ q ∈ ps, ¬(r.thread_id = tid ∧ r.tweet_id = q.2)) →
      r ∈ (ps.foldl (fun acc q => insertThreadTweet acc tid q.2 (q.1 + 1)) s).threadTweets := by
  induction ps with
  | nil => intro s r hr _; exact hr
  | cons q rest ih =>
    intro s r hr hne
    simp only [List.foldl_cons]
    exact ih _ r (mem_insertThreadTweet_of_ne s tid q.2 (q.1 + 1) r hr
      (hne q (by simp))) (fun x hx => hne x (by simp [hx]))

theorem insertThreadTweetFold_mem (tid : String) :
    ∀ (ps : List (Nat × String)) (s : Store),
      (ps.map Prod.snd).Nodup →
      ∀ p ∈ ps, (⟨tid, p.2, p.1 + 1⟩ : ThreadRow)
        ∈ (ps.foldl (fun acc q => insertThreadTweet acc tid q.2 (q.1 + 1)) s).threadTweets := by
  intro ps
  induction ps with
  | nil => intro s _ p hp; simp at hp
  | cons q rest ih =>
    intro s hnd p hp
    simp only [List.map_cons, List.nodup_cons] at hnd
    rcases List.mem_cons.mp hp with hq | hrest
    · subst hq
      simp only [List.foldl_cons]
      apply foldInsert_mem_of_ne
      · exact mem_insertThreadTweet_self s tid p.2 (p.1 + 1)
      · intro x hx hc
        have h2 : p.2 = x.2 := hc.2
        exact hnd.1 (by
          rw [h2]
          exact List.mem_map_of_mem Prod.snd hx)
    · simp only [List.foldl_cons]
      exact ih _ hnd.2 p hrest

theorem insertMembers_tweets (s : Store) (tid : String) (members : List String) :
    (insertMembers s tid members).tweets = s.tweets := by
  unfold insertMembers
  suffices hgen : ∀ (ps : List (Nat × String)) (st : Store),
      (ps.foldl (fun acc q => insertThreadTweet acc tid q.2 (q.1 + 1)) st).tweets
        = st.tweets by
    exact hgen members.enum s
  intro ps
  induction ps with
  | nil => intro st; rfl
  | cons q rest ih =>
    intro st
    simp only [List.foldl_cons]
    rw [ih]
    rfl

/-- Claim C5: for one conversation in the relationship pass, if not every
discovered thread member can be verified as collected or already
persisted, the store is left exactly unchanged for that conversation (no
thread_tweets row, no thread-root flag); when every member verifies (and
the member list is a genuine thread of more than one distinct member),
the root tweet row is flagged with the thread length and a membership
row with position i+1 is present for the i-th member. -/
theorem thread_all_or_nothing (env : Env) (collected : List String)
    (s : Store) (t : Tweet) :
    (¬(∀ m ∈ membersOf env t, (collected.contains m || tweetExists s m) = true) →
      threadRelStep env collected s t = s)
    ∧ (t.conversation_id ≠ "" → t.author ≠ "" →
       env.convFail2 t.conversation_id = false →
       1 < (membersOf env t).length →
       (∀ m ∈ membersOf env t, (collected.contains m || tweetExists s m) = true) →
       (membersOf env t).Nodup →
       (∀ r ∈ s.tweets, r.id = t.id →
          (⟨r.id, r.like_order, true, (membersOf env t).length⟩ : TweetRow)
            ∈ (threadRelStep env collected s t).tweets)
       ∧ ∀ p ∈ (membersOf env t).enum,
           (⟨t.id, p.2, p.1 + 1⟩ : ThreadRow)
             ∈ (threadRelStep env collected s t).threadTweets) := by
  constructor
  · intro hno
    unfold threadRelStep
    by_cases hg : t.conversation_id ≠ "" && t.author ≠ ""
    · rw [if_pos hg]
      by_cases hcf : env.convFail2 t.conversation_id
      · rw [if_pos hcf]
      · rw [if_neg hcf]
        simp only
        by_cases hlen : (membersOf env t).length > 1
        · rw [if_pos hlen]
          rw [if_neg ?_]
          intro hall
          exact hno (by
            intro m hm
            exact List.all_eq_true.mp hall m hm)
        · rw [if_neg hlen]
    · rw [if_neg hg]
  · intro hc ha hcf hlen hall hnd
    have hstep : threadRelStep env collected s t
        = insertMembers (updateThreadMetadata s t.id (membersOf env t).length)
            t.id (membersOf env t) := by
      unfold threadRelStep
      rw [if_pos (by simp [hc, ha]), if_neg (by simp [hcf])]
      simp only
      rw [if_pos hlen, if_pos (List.all_eq_true.mpr fun m hm => hall m hm)]
    rw [hstep]
    constructor
    · intro r hr hid
      rw [insertMembers_tweets]
      unfold updateThreadMetadata
      simp only [List.mem_map]
      refine ⟨r, hr, ?_⟩
      rw [if_pos hid, hid]
    · intro p hp
      unfold insertMembers
      apply insertThreadTweetFold_mem
      · rw [List.enum_map_snd]
        exact hnd
      · exact hp

/-- Witness for C5: a conversation of two members, one of which is
missing, writes nothing; the same conversation with both members
persisted writes the flag and both rows. -/
theorem thread_all_or_nothing_witness :
    (¬(∀ m ∈ membersOf
          ⟨[], fun _ _ => ["a", "b"], fun _ => false, fun _ => false,
           fun _ => none, fun _ => false, fun _ => none⟩
          ⟨"a", 1, [], "A @a", "c1", [], [], []⟩,
        (([] : List String).contains m
          || tweetExists ⟨[⟨"a", 1, false, 1⟩], [], [], []⟩ m) = true) →
      threadRelStep
        ⟨[], fun _ _ => ["a", "b"], fun _ => false, fun _ => false,
         fun _ => none, fun _ => false, fun _ => none⟩
        [] ⟨[⟨"a", 1, false, 1⟩], [], [], []⟩
        ⟨"a", 1, [], "A @a", "c1", [], [], []⟩
      = ⟨[⟨"a", 1, false, 1⟩], [], [], []⟩)
    ∧ ¬(∀ m ∈ membersOf
          ⟨[], fun _ _ => ["a", "b"], fun _ => false, fun _ => false,
           fun _ => none, fun _ => false, fun _ => none⟩
          ⟨"a", 1, [], "A @a", "c1", [], [], []⟩,
        (([] : List String).contains m
          || tweetExists ⟨[⟨"a", 1, false, 1⟩], [], [], []⟩ m) = true) := by
  constructor
  · exact (thread_all_or_nothing _ _ _ _).1
  · intro hall
    have := hall "b" (by
      show "b" ∈ ["a", "b"]
      simp)
    simp [tweetExists] at this

/-! Rank assignment across runs. -/

/-- A remote post carrying nothing but its id (its conversation id
defaults to the id, as in the extraction code). -/
def mkSimplePost (id : String) : RawPost := ⟨id, [], "Alice @al", id, [], [], []⟩

/-- A deterministic failure-free environment around a fixed batch with no
discoverable thread members. -/
def simpleEnv (batch : List RawPost) : Env :=
  ⟨batch, fun _ _ => [], fun _ => false, fun _ => false, fun _ => none,
   fun _ => false, fun _ => none⟩

/-- Claim C3 (refuting evidence): a first run at clock 1000 stores tweet
1 with like_order 1000; a second run at clock 500 inserts tweet 2 with
like_order 500 = now - index, strictly below the rank already stored,
although getHighestLikeOrder would have supplied the base 1001 — the
extraction receives that base as startOrder and never uses it. -/
theorem like_order_not_monotonic :
    ((runPipeline (simpleEnv [mkSimplePost "2"]) 500
        (runPipeline (simpleEnv [mkSimplePost "1"]) 1000 emptyStore).1).1).tweets
      = [⟨"1", 1000, false, 1⟩, ⟨"2", 500, false, 1⟩]
    ∧ getHighestLikeOrder (runPipeline (simpleEnv [mkSimplePost "1"]) 1000 emptyStore).1
        = 1001
    ∧ (500 : Int) < 1000 := by
  refine ⟨by decide, by decide, by decide⟩

/-! Idempotent re-run: component lemmas. -/

theorem any_congr {α : Type} (l : List α) (f g : α → Bool)
    (h : ∀ x ∈ l, f x = g x) : l.any f = l.any g := by
  induction l with
  | nil => rfl
  | cons a l ih =>
    simp only [List.any_cons]
    rw [h a (by simp), ih fun x hx => h x (by simp [hx])]

theorem all_congr {α : Type} (l : List α) (f g : α → Bool)
    (h : ∀ x ∈ l, f x = g x) : l.all f = l.all g := by
  induction l with
  | nil => rfl
  | cons a l ih =>
    simp only [List.all_cons]
    rw [h a (by simp), ih fun x hx => h x (by simp [hx])]

theorem mem_addUnique {l : List String} {x y : String}
    (h : y ∈ addUnique l x) : y ∈ l ∨ y = x := by
  unfold addUnique at h
  by_cases hc : l.contains x
  · rw [if_pos hc] at h
    exact Or.inl h
  · rw [if_neg hc] at h
    rcases List.mem_append.mp h with h1 | h2
    · exact Or.inl h1
    · simp at h2
      exact Or.inr h2

theorem insertTweet_components (s : Store) (t : Tweet) (failAt : Option Nat) :
    (insertTweet s t failAt).2.media = s.media
    ∧ (insertTweet s t failAt).2.threadTweets = s.threadTweets := by
  cases hr : (insertTweet s t failAt).1 with
  | true =>
    obtain ⟨_, _, h3, h4⟩ := (insertTweet_transactional s t failAt).1 hr
    exact ⟨h3, h4⟩
  | false =>
    rw [(insertTweet_transactional s t failAt).2.1 hr]
    exact ⟨rfl, rfl⟩

theorem insertTweet_exists_mono (s : Store) (t : Tweet) (failAt : Option Nat)
    (id : String) (h : tweetExists s id = true) :
    tweetExists (insertTweet s t failAt).2 id = true := by
  cases hr : (insertTweet s t failAt).1 with
  | true =>
    obtain ⟨h1, _, _, _⟩ := (insertTweet_transactional s t failAt).1 hr
    unfold tweetExists at *
    rw [h1, List.any_append, h]
    rfl
  | false =>
    rw [(insertTweet_transactional s t failAt).2.1 hr]
    exact h

theorem insertTweet_nil_links (s : Store) (t : Tweet) (failAt : Option Nat)
    (hnl : t.links = []) :
    (insertTweet s t failAt).1 = true
    ∧ (insertTweet s t failAt).2.links = s.links := by
  have hok : (insertTweet s t failAt).1 = true := by
    cases h : (insertTweet s t failAt).1 with
    | true => rfl
    | false =>
      obtain ⟨j, _, hlt⟩ := (insertTweet_transactional s t failAt).2.2.mp h
      rw [hnl] at hlt
      simp at hlt
  refine ⟨hok, ?_⟩
  obtain ⟨_, h2, _, _⟩ := (insertTweet_transactional s t failAt).1 hok
  rw [h2, hnl]
  simp

theorem insertTweet_self_exists (s : Store) (t : Tweet) (failAt : Option Nat)
    (hok : (insertTweet s t failAt).1 = true) :
    tweetExists (insertTweet s t failAt).2 t.id = true := by
  obtain ⟨h1, _, _, _⟩ := (insertTweet_transactional s t failAt).1 hok
  unfold tweetExists
  rw [h1, List.any_append]
  simp

theorem processMediaItems_components (s : Store) (items : List MediaItem)
    (dlFail : MediaItem → Bool) :
    (processMediaItems s items dlFail).1.tweets = s.tweets
    ∧ (processMediaItems s items dlFail).1.links = s.links
    ∧ (processMediaItems s items dlFail).1.threadTweets = s.threadTweets := by
  unfold processMediaItems
  suffices hgen : ∀ (its : List MediaItem) (acc : Store × List MediaResult × MediaStats),
      (its.foldl (processMediaItem dlFail) acc).1.tweets = acc.1.tweets
      ∧ (its.foldl (processMediaItem dlFail) acc).1.links = acc.1.links
      ∧ (its.foldl (processMediaItem dlFail) acc).1.threadTweets = acc.1.threadTweets by
    exact hgen items (s, [], ⟨items.length, 0, 0, 0, 0⟩)
  intro its
  induction its with
  | nil => intro acc; exact ⟨rfl, rfl, rfl⟩
  | cons it rest ih =>
    intro acc
    obtain ⟨st, results, stats⟩ := acc
    simp only [List.foldl_cons]
    obtain ⟨i1, i2, i3⟩ := ih (processMediaItem dlFail (st, results, stats) it)
    have hstep : (processMediaItem dlFail (st, results, stats) it).1.tweets = st.tweets
        ∧ (processMediaItem dlFail (st, results, stats) it).1.links = st.links
        ∧ (processMediaItem dlFail (st, results, stats) it).1.threadTweets
            = st.threadTweets := by
      by_cases hex : mediaExists st it.tweetId it.url
      · simp [processMediaItem, hex]
      · by_cases hf : dlFail it
        · simp [processMediaItem, hex, hf]
        · simp [processMediaItem, hex, hf, insertMedia]
    exact ⟨i1.trans hstep.1, i2.trans hstep.2.1, i3.trans hstep.2.2⟩

theorem updateThreadMetadata_components (s : Store) (a : String) (n : Nat) :
    (updateThreadMetadata s a n).media = s.media
    ∧ (updateThreadMetadata s a n).links = s.links
    ∧ (updateThreadMetadata s a n).threadTweets = s.threadTweets
    ∧ (updateThreadMetadata s a n).tweets.length = s.tweets.length := by
  refine ⟨rfl, rfl, rfl, ?_⟩
  unfold updateThreadMetadata
  simp

theorem updateThreadMetadata_exists (s : Store) (a : String) (n : Nat)
    (id : String) :
    tweetExists (updateThreadMetadata s a n) id = tweetExists s id := by
  unfold tweetExists updateThreadMetadata
  simp only [List.any_map]
  apply any_congr
  intro r _
  by_cases h : r.id = a <;> simp [h]

theorem insertThreadTweet_components (s : Store) (tid mid : String) (pos : Nat) :
    (insertThreadTweet s tid mid pos).tweets = s.tweets
    ∧ (insertThreadTweet s tid mid pos).media = s.media
    ∧ (insertThreadTweet s tid mid pos).links = s.links :=
  ⟨rfl, rfl, rfl⟩

/-- The key set used by the thread_tweets primary key. -/
def hasKey (s : Store) (tid mid : String) : Bool :=
  s.threadTweets.any fun r => r.thread_id = tid && r.tweet_id = mid

/-- No two thread_tweets rows share the primary key (thread_id,
tweet_id), the invariant the INSERT OR REPLACE upsert maintains. -/
def ThreadKeysUnique (s : Store) : Prop :=
  s.threadTweets.Pairwise fun a b =>
    ¬(a.thread_id = b.thread_id ∧ a.tweet_id = b.tweet_id)

theorem hasKey_insertThreadTweet_self (s : Store) (tid mid : String) (pos : Nat) :
    hasKey (insertThreadTweet s tid mid pos) tid mid = true := by
  unfold hasKey insertThreadTweet
  rw [List.any_append]
  simp

theorem hasKey_insertThreadTweet_mono (s : Store) (tid mid : String) (pos : Nat)
    (a b : String) (h : hasKey s a b = true) :
    hasKey (insertThreadTweet s tid mid pos) a b = true := by
  by_cases hab : a = tid ∧ b = mid
  · rw [hab.1, hab.2]
    exact hasKey_insertThreadTweet_self s tid mid pos
  · unfold hasKey at *
    rw [List.any_eq_true] at h
    obtain ⟨r, hr, hp⟩ := h
    simp only [Bool.and_eq_true, decide_eq_true_eq] at hp
    unfold insertThreadTweet
    rw [List.any_eq_true]
    refine ⟨r, ?_, by simp [hp.1, hp.2]⟩
    rw [List.mem_append]
    left
    refine List.mem_filter.mpr ⟨hr, ?_⟩
    simp only [Bool.not_eq_true']
    rw [Bool.and_eq_false_iff]
    by_cases h1 : r.thread_id = tid
    · right
      simp only [decide_eq_false_iff_not]
      intro h2
      exact hab ⟨hp.1 ▸ h1, hp.2 ▸ h2⟩
    · left
      simp only [decide_eq_false_iff_not]
      exact h1

theorem insertThreadTweet_unique (s : Store) (tid mid : String) (pos : Nat)
    (h : ThreadKeysUnique s) :
    ThreadKeysUnique (insertThreadTweet s tid mid pos) := by
  unfold ThreadKeysUnique insertThreadTweet at *
  simp only
  rw [List.pairwise_append]
  refine ⟨h.sublist (List.filter_sublist _), by simp, ?_⟩
  intro a ha b hb
  simp only [List.mem_singleton] at hb
  subst hb
  have hfa := (List.mem_filter.mp ha).2
  simp only [Bool.not_eq_true', Bool.and_eq_false_iff, decide_eq_false_iff_not] at hfa
  rintro ⟨h1, h2⟩
  rcases hfa with hl | hr2
  · exact hl h1
  · exact hr2 h2

theorem filter_length_of_unique (tid mid : String) :
    ∀ (l : List ThreadRow),
      l.Pairwise (fun a b => ¬(a.thread_id = b.thread_id ∧ a.tweet_id = b.tweet_id)) →
      l.any (fun r => r.thread_id = tid && r.tweet_id = mid) = true →
      (l.filter fun r => !(r.thread_id = tid && r.tweet_id = mid)).length + 1
        = l.length := by
  intro l
  induction l with
  | nil => intro _ h; simp at h
  | cons a rest ih =>
    intro hpw hany
    rw [List.pairwise_cons] at hpw
    by_cases hm : (a.thread_id = tid && a.tweet_id = mid) = true
    · simp only [Bool.and_eq_true, decide_eq_true_eq] at hm
      have hrest : rest.filter (fun r => !(r.thread_id = tid && r.tweet_id = mid))
          = rest := by
        rw [List.filter_eq_self]
        intro b hb
        have := hpw.1 b hb
        simp only [Bool.not_eq_true', Bool.and_eq_false_iff, decide_eq_false_iff_not]
        by_cases h1 : b.thread_id = tid
        · right
          intro h2
          exact this ⟨hm.1.trans h1.symm, hm.2.trans h2.symm⟩
        · left; exact h1
      rw [List.filter_cons_of_neg (by simp [hm.1, hm.2]), hrest]
      simp
    · have hany2 : rest.any (fun r => r.thread_id = tid && r.tweet_id = mid) = true := by
        rw [List.any_cons] at hany
        rcases Bool.or_eq_true_iff.mp hany with h1 | h2
        · exact absurd h1 hm
        · exact h2
      have hx : (decide (a.thread_id = tid) && decide (a.tweet_id = mid)) = false :=
        Bool.eq_false_iff.mpr hm
      rw [List.filter_cons_of_pos (by rw [hx]; rfl)]
      simp only [List.length_cons]
      rw [← ih hpw.2 hany2]

theorem insertThreadTweet_length (s : Store) (tid mid : String) (pos : Nat)
    (h : hasKey s tid mid = true) (hu : ThreadKeysUnique s) :
    (insertThreadTweet s tid mid pos).threadTweets.length
      = s.threadTweets.length := by
  unfold insertThreadTweet
  simp only [List.length_append, List.length_cons, List.length_nil]
  have := filter_length_of_unique tid mid s.threadTweets hu h
  omega

theorem foldInsert_components (tid : String) (ps : List (Nat × String)) :
    ∀ (s : Store),
      ((ps.foldl (fun acc q => insertThreadTweet acc tid q.2 (q.1 + 1)) s).tweets
        = s.tweets)
      ∧ ((ps.foldl (fun acc q => insertThreadTweet acc tid q.2 (q.1 + 1)) s).media
        = s.media)
      ∧ ((ps.foldl (fun acc q => insertThreadTweet acc tid q.2 (q.1 + 1)) s).links
        = s.links) := by
  induction ps with
  | nil => intro s; exact ⟨rfl, rfl, rfl⟩
  | cons q rest ih =>
    intro s
    simp only [List.foldl_cons]
    obtain ⟨i1, i2, i3⟩ := ih (insertThreadTweet s tid q.2 (q.1 + 1))
    exact ⟨i1, i2, i3⟩

theorem foldInsert_hasKey_mono (tid : String) (ps : List (Nat × String)) :
    ∀ (s : Store) (a b : String), hasKey s a b = true →
      hasKey (ps.foldl (fun acc q => insertThreadTweet acc tid q.2 (q.1 + 1)) s)
        a b = true := by
  induction ps with
  | nil => intro s a b h; exact h
  | cons q rest ih =>
    intro s a b h
    simp only [List.foldl_cons]
    exact ih _ a b (hasKey_insertThreadTweet_mono s tid q.2 (q.1 + 1) a b h)

theorem foldInsert_hasKey_self (tid : String) (ps : List (Nat × String)) :
    ∀ (s : Store) (q) (_ : q ∈ ps),
      hasKey (ps.foldl (fun acc q => insertThreadTweet acc tid q.2 (q.1 + 1)) s)
        tid q.2 = true := by
  induction ps with
  | nil => intro s q hq; simp at hq
  | cons p rest ih =>
    intro s q hq
    simp only [List.foldl_cons]
    rcases List.mem_cons.mp hq with h1 | h2
    · subst h1
      exact foldInsert_hasKey_mono tid rest _ tid q.2
        (hasKey_insertThreadTweet_self s tid q.2 (q.1 + 1))
    · exact ih _ q h2

theorem foldInsert_preserving (tid : String) (ps : List (Nat × String)) :
    ∀ (s : Store),
      ThreadKeysUnique s → (∀ q ∈ ps, hasKey s tid q.2 = true) →
      ((ps.foldl (fun acc q => insertThreadTweet acc tid q.2 (q.1 + 1)) s).threadTweets.length
        = s.threadTweets.length)
      ∧ ThreadKeysUnique
          (ps.foldl (fun acc q => insertThreadTweet acc tid q.2 (q.1 + 1)) s) := by
  induction ps with
  | nil => intro s hu _; exact ⟨rfl, hu⟩
  | cons q rest ih =>
    intro s hu hk
    simp only [List.foldl_cons]
    have hq := hk q (by simp)
    have hlen := insertThreadTweet_length s tid q.2 (q.1 + 1) hq hu
    have hu2 := insertThreadTweet_unique s tid q.2 (q.1 + 1) hu
    have hk2 : ∀ x ∈ rest, hasKey (insertThreadTweet s tid q.2 (q.1 + 1)) tid x.2 = true :=
      fun x hx => hasKey_insertThreadTweet_mono s tid q.2 (q.1 + 1) tid x.2
        (hk x (by simp [hx]))
    obtain ⟨l1, l2⟩ := ih _ hu2 hk2
    exact ⟨l1.trans hlen, l2⟩

theorem insertMembers_components (s : Store) (tid : String) (members : List String) :
    (insertMembers s tid members).media = s.media
    ∧ (insertMembers s tid members).links = s.links := by
  unfold insertMembers
  obtain ⟨_, h2, h3⟩ := foldInsert_components tid members.enum s
  exact ⟨h2, h3⟩

theorem insertMembers_hasKey_mono (s : Store) (tid : String) (members : List String)
    (a b : String) (h : hasKey s a b = true) :
    hasKey (insertMembers s tid members) a b = true :=
  foldInsert_hasKey_mono tid members.enum s a b h

theorem insertMembers_hasKey_all (s : Store) (tid : String) (members : List String) :
    ∀ m ∈ members, hasKey (insertMembers s tid members) tid m = true := by
  intro m hm
  obtain ⟨q, hq, hqm⟩ := by
    rw [← List.enum_map_snd members] at hm
    exact List.mem_map.mp hm
  rw [← hqm]
  exact foldInsert_hasKey_self tid members.enum s q hq

theorem insertMembers_preserving (s : Store) (tid : String) (members : List String)
    (hu : ThreadKeysUnique s) (hk : ∀ m ∈ members, hasKey s tid m = true) :
    (insertMembers s tid members).threadTweets.length = s.threadTweets.length
    ∧ ThreadKeysUnique (insertMembers s tid members) := by
  apply foldInsert_preserving tid members.enum s hu
  intro q hq
  apply hk
  rw [← List.enum_map_snd members]
  exact List.mem_map_of_mem Prod.snd hq

/-- The condition under which the relationship pass writes a
conversation: the guards of collector.ts pass 2 plus the all-members
verification. -/
def relDecision (env : Env) (collected : List String) (s : Store) (t : Tweet) : Bool :=
  (t.conversation_id ≠ "" && t.author ≠ "")
    && !env.convFail2 t.conversation_id
    && decide (1 < (membersOf env t).length)
    && (membersOf env t).all fun m => collected.contains m || tweetExists s m

theorem threadRelStep_eq (env : Env) (collected : List String) (s : Store)
    (t : Tweet) :
    threadRelStep env collected s t =
      if relDecision env collected s t = true
      then insertMembers (updateThreadMetadata s t.id (membersOf env t).length)
             t.id (membersOf env t)
      else s := by
  unfold threadRelStep relDecision
  by_cases h1 : (t.conversation_id ≠ "" && t.author ≠ "") = true
  · rw [if_pos h1]
    by_cases h2 : env.convFail2 t.conversation_id
    · rw [if_pos h2]
      rw [if_neg (by
        intro hX
        simp only [Bool.and_eq_true, Bool.not_eq_true'] at hX
        rw [hX.1.1.2] at h2
        exact Bool.false_ne_true h2)]
    · rw [if_neg h2]
      simp only
      by_cases h3 : (membersOf env t).length > 1
      · rw [if_pos h3]
        by_cases h4 : ((membersOf env t).all fun m =>
            collected.contains m || tweetExists s m) = true
        · rw [if_pos h4, if_pos (by
            rw [h1, h4, Bool.eq_false_iff.mpr h2]
            simp [h3])]
        · rw [if_neg h4, if_neg (by
            intro hX
            simp only [Bool.and_eq_true] at hX
            exact h4 hX.2)]
      · rw [if_neg h3, if_neg (by
          intro hX
          simp only [Bool.and_eq_true, decide_eq_true_eq] at hX
          exact h3 hX.1.2)]
  · rw [if_neg h1, if_neg (by
      intro hX
      simp only [Bool.and_eq_true] at hX
      exact h1 (by
        rw [Bool.and_eq_true]
        exact hX.1.1.1))]

theorem threadRelStep_exists (env : Env) (collected : List String) (s : Store)
    (t : Tweet) (id : String) :
    tweetExists (threadRelStep env collected s t) id = tweetExists s id := by
  rw [threadRelStep_eq]
  by_cases h : relDecision env collected s t = true
  · rw [if_pos h]
    unfold insertMembers tweetExists
    rw [(foldInsert_components t.id (membersOf env t).enum _).1]
    exact updateThreadMetadata_exists s t.id (membersOf env t).length id

  · rw [if_neg h]

theorem relDecision_congr (env : Env) (collected : List String) (s s2 : Store)
    (t : Tweet) (h : ∀ id, tweetExists s2 id = tweetExists s id) :
    relDecision env collected s2 t = relDecision env collected s t := by
  unfold relDecision
  congr 1
  apply all_congr
  intro m _
  rw [h m]

theorem threadRelStep_components (env : Env) (collected : List String)
    (s : Store) (t : Tweet) :
    (threadRelStep env collected s t).media = s.media
    ∧ (threadRelStep env collected s t).links = s.links
    ∧ (threadRelStep env collected s t).tweets.length = s.tweets.length := by
  rw [threadRelStep_eq]
  by_cases h : relDecision env collected s t = true
  · rw [if_pos h]
    obtain ⟨m1, m2⟩ := insertMembers_components
      (updateThreadMetadata s t.id (membersOf env t).length) t.id (membersOf env t)
    obtain ⟨u1, u2, _, u4⟩ := updateThreadMetadata_components s t.id
      (membersOf env t).length
    refine ⟨m1.trans u1, m2.trans u2, ?_⟩
    rw [insertMembers_tweets]
    exact u4
  · rw [if_neg h]
    exact ⟨rfl, rfl, rfl⟩

theorem threadRelStep_hasKey_mono (env : Env) (collected : List String)
    (s : Store) (t : Tweet) (a b : String) (h : hasKey s a b = true) :
    hasKey (threadRelStep env collected s t) a b = true := by
  rw [threadRelStep_eq]
  by_cases hd : relDecision env collected s t = true
  · rw [if_pos hd]
    apply insertMembers_hasKey_mono
    exact h
  · rw [if_neg hd]
    exact h

theorem threadRelPhase_hasKey_mono (env : Env) (collected : List String) :
    ∀ (ts : List Tweet) (s : Store) (a b : String), hasKey s a b = true →
      hasKey (threadRelPhase env collected ts s) a b = true := by
  intro ts
  induction ts with
  | nil => intro s a b h; exact h
  | cons t rest ih =>
    intro s a b h
    unfold threadRelPhase at *
    simp only [List.foldl_cons]
    exact ih _ a b (threadRelStep_hasKey_mono env collected s t a b h)

theorem threadRelPhase_exists (env : Env) (collected : List String) :
    ∀ (ts : List Tweet) (s : Store) (id : String),
      tweetExists (threadRelPhase env collected ts s) id = tweetExists s id := by
  intro ts
  induction ts with
  | nil => intro s id; rfl
  | cons t rest ih =>
    intro s id
    unfold threadRelPhase at *
    simp only [List.foldl_cons]
    rw [ih, threadRelStep_exists]

theorem threadRelPhase_writes (env : Env) (collected : List String) :
    ∀ (ts : List Tweet) (s : Store),
      ∀ t ∈ ts, relDecision env collected s t = true →
        ∀ m ∈ membersOf env t,
          hasKey (threadRelPhase env collected ts s) t.id m = true := by
  intro ts
  induction ts with
  | nil => intro s t ht; simp at ht
  | cons t0 rest ih =>
    intro s t ht hd m hm
    unfold threadRelPhase at *
    simp only [List.foldl_cons]
    rcases List.mem_cons.mp ht with h1 | h2
    · subst h1
      apply threadRelPhase_hasKey_mono env collected rest
      rw [threadRelStep_eq, if_pos hd]
      exact insertMembers_hasKey_all _ t.id (membersOf env t) m hm
    · apply ih _ t h2 _ m hm
      rw [relDecision_congr env collected s _ t
        (fun id => threadRelStep_exists env collected s t0 id)]
      exact hd

theorem threadRelPhase_preserving (env : Env) (collected : List String) :
    ∀ (ts : List Tweet) (s : Store),
      ThreadKeysUnique s →
      (∀ t ∈ ts, relDecision env collected s t = true →
        ∀ m ∈ membersOf env t, hasKey s t.id m = true) →
      ((threadRelPhase env collected ts s).threadTweets.length
        = s.threadTweets.length)
      ∧ (threadRelPhase env collected ts s).media = s.media
      ∧ (threadRelPhase env collected ts s).links = s.links
      ∧ (threadRelPhase env collected ts s).tweets.length = s.tweets.length := by
  intro ts
  induction ts with
  | nil => intro s _ _; exact ⟨rfl, rfl, rfl, rfl⟩
  | cons t0 rest ih =>
    intro s hu hw
    unfold threadRelPhase at *
    simp only [List.foldl_cons]
    have hstep : ((threadRelStep env collected s t0).threadTweets.length
          = s.threadTweets.length)
        ∧ ThreadKeysUnique (threadRelStep env collected s t0) := by
      rw [threadRelStep_eq]
      by_cases hd : relDecision env collected s t0 = true
      · rw [if_pos hd]
        have hk := hw t0 (by simp) hd
        have hkey : ∀ m ∈ membersOf env t0,
            hasKey (updateThreadMetadata s t0.id (membersOf env t0).length)
              t0.id m = true := by
          intro m hm
          unfold hasKey updateThreadMetadata
          exact hk m hm
        have hu2 : ThreadKeysUnique
            (updateThreadMetadata s t0.id (membersOf env t0).length) := hu
        obtain ⟨p1, p2⟩ := insertMembers_preserving _ t0.id (membersOf env t0) hu2 hkey
        constructor
        · rw [p1]
          rfl
        · exact p2
      · rw [if_neg hd]
        exact ⟨rfl, hu⟩
    have hw2 : ∀ t ∈ rest,
        relDecision env collected (threadRelStep env collected s t0) t = true →
        ∀ m ∈ membersOf env t,
          hasKey (threadRelStep env collected s t0) t.id m = true := by
      intro t ht hd m hm
      apply threadRelStep_hasKey_mono
      apply hw t (by simp [ht])
      · rw [← relDecision_congr env collected s (threadRelStep env collected s t0) t
          (fun id => threadRelStep_exists env collected s t0 id)]
        exact hd
      · exact hm
    obtain ⟨r1, r2, r3, r4⟩ := ih (threadRelStep env collected s t0) hstep.2 hw2
    obtain ⟨c1, c2, c3⟩ := threadRelStep_components env collected s t0
    exact ⟨r1.trans hstep.1, r2.trans c1, r3.trans c2, r4.trans c3⟩

theorem threadRelPhase_unique (env : Env) (collected : List String) :
    ∀ (ts : List Tweet) (s : Store), ThreadKeysUnique s →
      ThreadKeysUnique (threadRelPhase env collected ts s) := by
  intro ts
  induction ts with
  | nil => intro s hu; exact hu
  | cons t0 rest ih =>
    intro s hu
    unfold threadRelPhase at *
    simp only [List.foldl_cons]
    apply ih
    rw [threadRelStep_eq]
    by_cases hd : relDecision env collected s t0 = true
    · rw [if_pos hd]
      unfold insertMembers
      have hu2 : ThreadKeysUnique
          (updateThreadMetadata s t0.id (membersOf env t0).length) := hu
      clear hd hu
      generalize updateThreadMetadata s t0.id (membersOf env t0).length = st at hu2
      induction (membersOf env t0).enum generalizing st with
      | nil => exact hu2
      | cons q qs ihq =>
        simp only [List.foldl_cons]
        exact ihq _ (insertThreadTweet_unique st t0.id q.2 (q.1 + 1) hu2)
    · rw [if_neg hd]
      exact hu

/-! Insert-phase lemmas. -/

theorem insertStep_cases (env : Env) (st : Store) (cnt : Nat)
    (newIds : List String) (t : Tweet) :
    insertStep env (st, cnt, newIds) t = (st, cnt, newIds)
    ∨ insertStep env (st, cnt, newIds) t
        = ((insertTweet st t (env.insertFail t.id)).2, cnt + 1, newIds ++ [t.id])
    ∨ insertStep env (st, cnt, newIds) t
        = ((insertTweet st t (env.insertFail t.id)).2, cnt, newIds) := by
  unfold insertStep
  by_cases hid : t.id ≠ ""
  · by_cases hex : tweetExists st t.id
    · left
      simp [hid, hex]
    · by_cases hok : (insertTweet st t (env.insertFail t.id)).1 = true
      · right; left
        simp [hid, hex, hok]
      · right; right
        simp only [Bool.not_eq_true] at hok
        simp [hid, hex, hok]
  · left
    simp [hid]

theorem insertStep_store_facts (env : Env) (st : Store) (cnt : Nat)
    (newIds : List String) (t : Tweet) :
    ((insertStep env (st, cnt, newIds) t).1.media = st.media)
    ∧ ((insertStep env (st, cnt, newIds) t).1.threadTweets = st.threadTweets)
    ∧ (∀ id, tweetExists st id = true →
        tweetExists (insertStep env (st, cnt, newIds) t).1 id = true) := by
  rcases insertStep_cases env st cnt newIds t with h | h | h <;> rw [h]
  · exact ⟨rfl, rfl, fun id hid => hid⟩
  · obtain ⟨c1, c2⟩ := insertTweet_components st t (env.insertFail t.id)
    exact ⟨c1, c2, fun id hid => insertTweet_exists_mono st t _ id hid⟩
  · obtain ⟨c1, c2⟩ := insertTweet_components st t (env.insertFail t.id)
    exact ⟨c1, c2, fun id hid => insertTweet_exists_mono st t _ id hid⟩

theorem insertPhaseGo_facts (env : Env) :
    ∀ (ts : List Tweet) (st : Store) (cnt : Nat) (newIds : List String),
      ((ts.foldl (insertStep env) (st, cnt, newIds)).1.media = st.media)
      ∧ ((ts.foldl (insertStep env) (st, cnt, newIds)).1.threadTweets
          = st.threadTweets)
      ∧ (∀ id, tweetExists st id = true →
          tweetExists (ts.foldl (insertStep env) (st, cnt, newIds)).1 id = true) := by
  intro ts
  induction ts with
  | nil => intro st cnt newIds; exact ⟨rfl, rfl, fun _ h => h⟩
  | cons t rest ih =>
    intro st cnt newIds
    simp only [List.foldl_cons]
    obtain ⟨s1, s2, s3⟩ := insertStep_store_facts env st cnt newIds t
    have heta : insertStep env (st, cnt, newIds) t
        = ((insertStep env (st, cnt, newIds) t).1,
           (insertStep env (st, cnt, newIds) t).2.1,
           (insertStep env (st, cnt, newIds) t).2.2) := rfl
    rw [heta]
    obtain ⟨j1, j2, j3⟩ := ih (insertStep env (st, cnt, newIds) t).1
      (insertStep env (st, cnt, newIds) t).2.1
      (insertStep env (st, cnt, newIds) t).2.2
    exact ⟨j1.trans s1, j2.trans s2, fun id hid => j3 id (s3 id hid)⟩

theorem insertTweet_none_ok (s : Store) (t : Tweet) :
    (insertTweet s t none).1 = true := by
  cases hr : (insertTweet s t none).1 with
  | true => rfl
  | false =>
    obtain ⟨j, hj, _⟩ := (insertTweet_transactional s t none).2.2.mp hr
    exact absurd hj (by simp)

theorem insertPhaseGo_all_exist (env : Env)
    (hins : ∀ id, env.insertFail id = none) :
    ∀ (ts : List Tweet) (st : Store) (cnt : Nat) (newIds : List String),
      ∀ t ∈ ts, t.id ≠ "" →
        tweetExists (ts.foldl (insertStep env) (st, cnt, newIds)).1 t.id = true := by
  intro ts
  induction ts with
  | nil => intro st cnt newIds t ht; simp at ht
  | cons t0 rest ih =>
    intro st cnt newIds t ht hid
    simp only [List.foldl_cons]
    have heta : insertStep env (st, cnt, newIds) t0
        = ((insertStep env (st, cnt, newIds) t0).1,
           (insertStep env (st, cnt, newIds) t0).2.1,
           (insertStep env (st, cnt, newIds) t0).2.2) := rfl
    rcases List.mem_cons.mp ht with h1 | h2
    · subst h1
      have hx : tweetExists (insertStep env (st, cnt, newIds) t).1 t.id = true := by
        unfold insertStep
        by_cases hex : tweetExists st t.id
        · simp only [if_pos hid, if_pos hex]
          exact hex
        · have hok : (insertTweet st t (env.insertFail t.id)).1 = true := by
            rw [hins t.id]
            exact insertTweet_none_ok st t
          simp only [if_pos hid, if_neg hex, hok, if_pos]
          rw [hins t.id] at *
          exact insertTweet_self_exists st t none hok
      rw [heta]
      exact (insertPhaseGo_facts env rest _ _ _).2.2 t.id hx
    · rw [heta]
      exact ih _ _ _ t h2 hid

theorem insertPhase_all_exist (env : Env) (ts : List Tweet) (s : Store)
    (hins : ∀ id, env.insertFail id = none) :
    ∀ t ∈ ts, t.id ≠ "" → tweetExists (insertPhase env ts s).1 t.id = true :=
  insertPhaseGo_all_exist env hins ts s 0 []

theorem insertPhase_noop (env : Env) (ts : List Tweet) (s : Store)
    (h : ∀ t ∈ ts, t.id ≠ "" → tweetExists s t.id = true) :
    insertPhase env ts s = (s, 0, []) := by
  unfold insertPhase
  induction ts with
  | nil => rfl
  | cons t0 rest ih =>
    simp only [List.foldl_cons]
    have hstep : insertStep env (s, 0, []) t0 = (s, 0, []) := by
      unfold insertStep
      by_cases hid : t0.id ≠ ""
      · simp only [if_pos hid, if_pos (h t0 (by simp) hid)]
      · simp only [if_neg hid]
    rw [hstep]
    exact ih fun t ht hid => h t (by simp [ht]) hid

/-! Thread fetch-phase lemmas. -/

theorem threadFetchStep_facts (env : Env) (now : Int) (colSet : List String)
    (s : Store) (col : List String) (r : String) :
    ((threadFetchStep env now colSet (s, col) r).1.threadTweets = s.threadTweets)
    ∧ ((threadFetchStep env now colSet (s, col) r).1.links = s.links)
    ∧ (∀ id, tweetExists s id = true →
        tweetExists (threadFetchStep env now colSet (s, col) r).1 id = true) := by
  unfold threadFetchStep
  by_cases hex : tweetExists s r
  · simp only [if_pos hex]
    exact ⟨by simp, by simp, fun _ h => h⟩
  · simp only [if_neg hex]
    cases hf : env.fetch r with
    | none => exact ⟨by simp, by simp, fun _ h => h⟩
    | some raw =>
      simp only
      by_cases hex2 : tweetExists s raw.id
      · simp only [if_pos hex2]
        exact ⟨by simp, by simp, fun _ h => h⟩
      · simp only [if_neg hex2]
        have hok : (insertTweet s (fetchedTweet now colSet r raw)
            (env.insertFail (fetchedTweet now colSet r raw).id)).1 = true :=
          (insertTweet_nil_links s _ _ rfl).1
        simp only [hok, if_pos]
        set s1 := (insertTweet s (fetchedTweet now colSet r raw)
          (env.insertFail (fetchedTweet now colSet r raw).id)).2 with hs1
        obtain ⟨p1, p2, p3⟩ := processMediaItems_components s1
          (mediaItemsOf (fetchedTweet now colSet r raw).id raw.images raw.videos raw.gifs)
          env.dlFail
        obtain ⟨c1, c2⟩ := insertTweet_components s (fetchedTweet now colSet r raw)
          (env.insertFail (fetchedTweet now colSet r raw).id)
        refine ⟨p3.trans c2, ?_, ?_⟩
        · rw [p2]
          exact (insertTweet_nil_links s _ _ rfl).2
        · intro id hid
          have h1 : tweetExists s1 id = true := insertTweet_exists_mono s _ _ id hid
          unfold tweetExists at *
          rw [p1]
          exact h1

theorem threadFetchGo_facts (env : Env) (now : Int) (colSet : List String) :
    ∀ (l : List String) (s : Store) (col : List String),
      ((l.foldl (threadFetchStep env now colSet) (s, col)).1.threadTweets
        = s.threadTweets)
      ∧ ((l.foldl (threadFetchStep env now colSet) (s, col)).1.links = s.links)
      ∧ (∀ id, tweetExists s id = true →
          tweetExists (l.foldl (threadFetchStep env now colSet) (s, col)).1 id
            = true) := by
  intro l
  induction l with
  | nil => intro s col; exact ⟨rfl, rfl, fun _ h => h⟩
  | cons r rest ih =>
    intro s col
    simp only [List.foldl_cons]
    have heta : threadFetchStep env now colSet (s, col) r
        = ((threadFetchStep env now colSet (s, col) r).1,
           (threadFetchStep env now colSet (s, col) r).2) := rfl
    rw [heta]
    obtain ⟨f1, f2, f3⟩ := threadFetchStep_facts env now colSet s col r
    obtain ⟨j1, j2, j3⟩ := ih (threadFetchStep env now colSet (s, col) r).1
      (threadFetchStep env now colSet (s, col) r).2
    exact ⟨j1.trans f1, j2.trans f2, fun id hid => j3 id (f3 id hid)⟩

theorem threadFetchGo_settled (env : Env) (now : Int) (colSet : List String) :
    ∀ (l : List String) (s : Store) (col : List String),
      ∀ r ∈ l,
        tweetExists (l.foldl (threadFetchStep env now colSet) (s, col)).1 r = true
        ∨ env.fetch r = none
        ∨ ∃ raw, env.fetch r = some raw
            ∧ tweetExists (l.foldl (threadFetchStep env now colSet) (s, col)).1
                raw.id = true := by
  intro l
  induction l with
  | nil => intro s col r hr; simp at hr
  | cons r0 rest ih =>
    intro s col r hr
    simp only [List.foldl_cons]
    have heta : threadFetchStep env now colSet (s, col) r0
        = ((threadFetchStep env now colSet (s, col) r0).1,
           (threadFetchStep env now colSet (s, col) r0).2) := rfl
    rcases List.mem_cons.mp hr with h1 | h2
    · subst h1
      have hstep : tweetExists (threadFetchStep env now colSet (s, col) r).1 r = true
          ∨ env.fetch r = none
          ∨ ∃ raw, env.fetch r = some raw
              ∧ tweetExists (threadFetchStep env now colSet (s, col) r).1 raw.id
                  = true := by
        unfold threadFetchStep
        by_cases hex : tweetExists s r
        · simp only [if_pos hex]
          exact Or.inl hex
        · simp only [if_neg hex]
          cases hf : env.fetch r with
          | none => exact Or.inr (Or.inl rfl)
          | some raw =>
            simp only
            by_cases hex2 : tweetExists s raw.id
            · simp only [if_pos hex2]
              exact Or.inr (Or.inr ⟨raw, rfl, hex2⟩)
            · simp only [if_neg hex2]
              have hok : (insertTweet s (fetchedTweet now colSet r raw)
                  (env.insertFail (fetchedTweet now colSet r raw).id)).1 = true :=
                (insertTweet_nil_links s _ _ rfl).1
              simp only [hok, if_pos]
              refine Or.inr (Or.inr ⟨raw, rfl, ?_⟩)
              have h1 : tweetExists (insertTweet s (fetchedTweet now colSet r raw)
                  (env.insertFail (fetchedTweet now colSet r raw).id)).2
                    (fetchedTweet now colSet r raw).id = true :=
                insertTweet_self_exists s _ _ hok
              obtain ⟨p1, _, _⟩ := processMediaItems_components
                (insertTweet s (fetchedTweet now colSet r raw)
                  (env.insertFail (fetchedTweet now colSet r raw).id)).2
                (mediaItemsOf (fetchedTweet now colSet r raw).id raw.images
                  raw.videos raw.gifs) env.dlFail
              unfold tweetExists at *
              rw [p1]
              exact h1
      rcases hstep with hs1 | hs2 | ⟨raw, hraw, hs3⟩
      · rw [heta]
        exact Or.inl ((threadFetchGo_facts env now colSet rest _ _).2.2 r hs1)
      · exact Or.inr (Or.inl hs2)
      · rw [heta]
        exact Or.inr (Or.inr ⟨raw, hraw,
          (threadFetchGo_facts env now colSet rest _ _).2.2 raw.id hs3⟩)
    · rw [heta]
      exact ih _ _ r h2

theorem threadFetchStep_collected (env : Env) (now : Int) (colSet : List String)
    (s : Store) (col : List String) (r : String)
    (hc : ∀ x ∈ col, tweetExists s x = true) :
    ∀ y ∈ (threadFetchStep env now colSet (s, col) r).2,
      tweetExists (threadFetchStep env now colSet (s, col) r).1 y = true := by
  unfold threadFetchStep
  by_cases hex : tweetExists s r
  · simp only [if_pos hex]
    intro y hy
    rcases mem_addUnique hy with h1 | h2
    · exact hc y h1
    · subst h2; exact hex
  · simp only [if_neg hex]
    cases hf : env.fetch r with
    | none => exact fun y hy => hc y hy
    | some raw =>
      simp only
      by_cases hex2 : tweetExists s raw.id
      · simp only [if_pos hex2]
        exact fun y hy => hc y hy
      · simp only [if_neg hex2]
        have hok : (insertTweet s (fetchedTweet now colSet r raw)
            (env.insertFail (fetchedTweet now colSet r raw).id)).1 = true :=
          (insertTweet_nil_links s _ _ rfl).1
        simp only [hok, if_pos]
        intro y hy
        obtain ⟨p1, _, _⟩ := processMediaItems_components
          (insertTweet s (fetchedTweet now colSet r raw)
            (env.insertFail (fetchedTweet now colSet r raw).id)).2
          (mediaItemsOf (fetchedTweet now colSet r raw).id raw.images
            raw.videos raw.gifs) env.dlFail
        rcases mem_addUnique hy with h1 | h2
        · have := insertTweet_exists_mono s (fetchedTweet now colSet r raw)
            (env.insertFail (fetchedTweet now colSet r raw).id) y (hc y h1)
          unfold tweetExists at *
          rw [p1]
          exact this
        · subst h2
          have := insertTweet_self_exists s (fetchedTweet now colSet r raw)
            (env.insertFail (fetchedTweet now colSet r raw).id) hok
          unfold tweetExists at *
          rw [p1]
          exact this

theorem threadFetchGo_collected (env : Env) (now : Int) (colSet : List String) :
    ∀ (l : List String) (s : Store) (col : List String),
      (∀ x ∈ col, tweetExists s x = true) →
      ∀ x ∈ (l.foldl (threadFetchStep env now colSet) (s, col)).2,
        tweetExists (l.foldl (threadFetchStep env now colSet) (s, col)).1 x
          = true := by
  intro l
  induction l with
  | nil => intro s col hc x hx; exact hc x hx
  | cons r rest ih =>
    intro s col hc x hx
    simp only [List.foldl_cons] at hx ⊢
    have heta : threadFetchStep env now colSet (s, col) r
        = ((threadFetchStep env now colSet (s, col) r).1,
           (threadFetchStep env now colSet (s, col) r).2) := rfl
    rw [heta] at hx ⊢
    exact ih _ _ (fun y hy => threadFetchStep_collected env now colSet s col r hc y hy) x hx

theorem threadFetchGo_noop (env : Env) (now : Int) (colSet : List String) :
    ∀ (l : List String) (s : Store) (col : List String),
      (∀ r ∈ l, tweetExists s r = true ∨ env.fetch r = none
        ∨ ∃ raw, env.fetch r = some raw ∧ tweetExists s raw.id = true) →
      (l.foldl (threadFetchStep env now colSet) (s, col)).1 = s := by
  intro l
  induction l with
  | nil => intro s col _; rfl
  | cons r rest ih =>
    intro s col hset
    simp only [List.foldl_cons]
    have hstep : (threadFetchStep env now colSet (s, col) r).1 = s := by
      unfold threadFetchStep
      by_cases hex : tweetExists s r
      · simp only [if_pos hex]
      · simp only [if_neg hex]
        rcases hset r (by simp) with h1 | h2 | ⟨raw, hraw, hex2⟩
        · exact absurd h1 hex
        · rw [h2]
        · rw [hraw]
          simp only [if_pos hex2]
    rcases hpair : threadFetchStep env now colSet (s, col) r with ⟨st2, col2⟩
    rw [hpair] at hstep
    have hst2 : st2 = s := hstep
    rw [hst2]
    exact ih s col2 fun x hx => hset x (by simp [hx])

/-! Media queue lemma. -/

theorem mediaQueue_nil (ts : List Tweet) : mediaQueue [] ts = [] := by
  unfold mediaQueue
  induction ts with
  | nil => rfl
  | cons t rest ih =>
    simp only [List.foldl_cons]
    have hstep : (if t.id ≠ "" && ([] : List String).contains t.id then
        ([] : List MediaItem) ++ mediaItemsOf t.id t.images t.videos t.gifs
        else []) = [] := by
      simp
    rw [hstep]
    exact ih

/-! Run-level lemmas. -/

theorem tweetExists_of_tweets_eq (s1 s2 : Store) (h : s2.tweets = s1.tweets)
    (id : String) : tweetExists s2 id = tweetExists s1 id := by
  unfold tweetExists
  rw [h]

theorem hasKey_of_threadTweets_eq (s1 s2 : Store)
    (h : s2.threadTweets = s1.threadTweets) (a b : String) :
    hasKey s2 a b = hasKey s1 a b := by
  unfold hasKey
  rw [h]

theorem keysUnique_of_threadTweets_eq (s1 s2 : Store)
    (h : s2.threadTweets = s1.threadTweets) (hu : ThreadKeysUnique s1) :
    ThreadKeysUnique s2 := by
  unfold ThreadKeysUnique at *
  rw [h]
  exact hu

theorem runPipeline_eq (env : Env) (now : Int) (s : Store) :
    runPipeline env now s =
      ((processMediaItems
          (threadRelPhase env
            (threadFetchPhase env now
              (collectSetPhase env (extractBatch now env.batch))
              (insertPhase env (extractBatch now env.batch) s).1).2
            (extractBatch now env.batch)
            (threadFetchPhase env now
              (collectSetPhase env (extractBatch now env.batch))
              (insertPhase env (extractBatch now env.batch) s).1).1)
          (mediaQueue (insertPhase env (extractBatch now env.batch) s).2.2
            (extractBatch now env.batch)) env.dlFail).1,
       (insertPhase env (extractBatch now env.batch) s).2.1) := rfl

theorem runPipeline_exists_eq_mid (env : Env) (now : Int) (s : Store)
    (id : String) :
    tweetExists (runPipeline env now s).1 id
      = tweetExists
          (threadFetchPhase env now
            (collectSetPhase env (extractBatch now env.batch))
            (insertPhase env (extractBatch now env.batch) s).1).1 id := by
  rw [runPipeline_eq]
  simp only
  rw [tweetExists_of_tweets_eq _ _ (processMediaItems_components _ _ _).1]
  exact threadRelPhase_exists env _ (extractBatch now env.batch) _ id

theorem runPipeline_batch_exist (env : Env) (now : Int) (s : Store)
    (hins : ∀ id, env.insertFail id = none) :
    ∀ t ∈ extractBatch now env.batch, t.id ≠ "" →
      tweetExists (runPipeline env now s).1 t.id = true := by
  intro t ht hid
  rw [runPipeline_exists_eq_mid]
  unfold threadFetchPhase
  exact (threadFetchGo_facts env now _ _ _ _).2.2 t.id
    (insertPhase_all_exist env (extractBatch now env.batch) s hins t ht hid)

theorem runPipeline_settled (env : Env) (now : Int) (s : Store) :
    ∀ r ∈ collectSetPhase env (extractBatch now env.batch),
      tweetExists (runPipeline env now s).1 r = true
      ∨ env.fetch r = none
      ∨ ∃ raw, env.fetch r = some raw
          ∧ tweetExists (runPipeline env now s).1 raw.id = true := by
  intro r hr
  have h := threadFetchGo_settled env now
    (collectSetPhase env (extractBatch now env.batch))
    (collectSetPhase env (extractBatch now env.batch))
    (insertPhase env (extractBatch now env.batch) s).1 [] r hr
  rcases h with h1 | h2 | ⟨raw, hraw, h3⟩
  · left
    rw [runPipeline_exists_eq_mid]
    exact h1
  · exact Or.inr (Or.inl h2)
  · refine Or.inr (Or.inr ⟨raw, hraw, ?_⟩)
    rw [runPipeline_exists_eq_mid]
    exact h3

theorem runPipeline_collected (env : Env) (now : Int) (s : Store) :
    ∀ x ∈ (threadFetchPhase env now
        (collectSetPhase env (extractBatch now env.batch))
        (insertPhase env (extractBatch now env.batch) s).1).2,
      tweetExists (runPipeline env now s).1 x = true := by
  intro x hx
  rw [runPipeline_exists_eq_mid]
  unfold threadFetchPhase at *
  exact threadFetchGo_collected env now _ _ _ [] (by simp) x hx

theorem runPipeline_unique (env : Env) (now : Int) (s : Store)
    (hu : ThreadKeysUnique s) : ThreadKeysUnique (runPipeline env now s).1 := by
  rw [runPipeline_eq]
  simp only
  apply keysUnique_of_threadTweets_eq _ _ (processMediaItems_components _ _ _).2.2
  apply threadRelPhase_unique
  apply keysUnique_of_threadTweets_eq _ _ ?h2
  · exact keysUnique_of_threadTweets_eq _ _
      (insertPhaseGo_facts env (extractBatch now env.batch) s 0 []).2.1 hu
  · unfold threadFetchPhase
    exact (threadFetchGo_facts env now _ _ _ _).1

theorem relDecision_true_iff (env : Env) (col : List String) (s : Store)
    (t : Tweet) :
    relDecision env col s t = true ↔
      ((t.conversation_id ≠ "" && t.author ≠ "") = true
       ∧ env.convFail2 t.conversation_id = false
       ∧ 1 < (membersOf env t).length
       ∧ ∀ m ∈ membersOf env t, (col.contains m || tweetExists s m) = true) := by
  unfold relDecision
  constructor
  · intro h
    rw [Bool.and_eq_true, Bool.and_eq_true, Bool.and_eq_true] at h
    obtain ⟨⟨⟨h1, h2⟩, h3⟩, h4⟩ := h
    refine ⟨h1, ?_, ?_, ?_⟩
    · rwa [Bool.not_eq_true'] at h2
    · exact of_decide_eq_true h3
    · exact List.all_eq_true.mp h4
  · rintro ⟨h1, h2, h3, h4⟩
    rw [Bool.and_eq_true, Bool.and_eq_true, Bool.and_eq_true]
    refine ⟨⟨⟨h1, ?_⟩, ?_⟩, ?_⟩
    · rw [Bool.not_eq_true']
      exact h2
    · exact decide_eq_true h3
    · exact List.all_eq_true.mpr h4

theorem membersOf_congr (env : Env) (t1 t2 : Tweet)
    (hc : t1.conversation_id = t2.conversation_id) (ha : t1.author = t2.author) :
    membersOf env t1 = membersOf env t2 := by
  unfold membersOf
  rw [hc, ha]

theorem runPipeline_keys (env : Env) (now : Int) (s : Store) :
    ∀ t ∈ extractBatch now env.batch,
      (t.conversation_id ≠ "" && t.author ≠ "") = true →
      env.convFail2 t.conversation_id = false →
      1 < (membersOf env t).length →
      (∀ m ∈ membersOf env t, tweetExists (runPipeline env now s).1 m = true) →
      ∀ m ∈ membersOf env t, hasKey (runPipeline env now s).1 t.id m = true := by
  intro t ht hg hcf hlen hex m hm
  rw [runPipeline_eq]
  simp only
  rw [hasKey_of_threadTweets_eq _ _ (processMediaItems_components _ _ _).2.2]
  apply threadRelPhase_writes env _ (extractBatch now env.batch) _ t ht _ m hm
  rw [relDecision_true_iff]
  refine ⟨hg, hcf, hlen, ?_⟩
  intro m2 hm2
  rw [Bool.or_eq_true]
  right
  rw [← runPipeline_exists_eq_mid]
  exact hex m2 hm2

theorem extractBatch_fields (now now2 : Int) (b : List RawPost) :
    ∀ t ∈ extractBatch now b, ∃ t2 ∈ extractBatch now2 b,
      t2.id = t.id ∧ t2.conversation_id = t.conversation_id
      ∧ t2.author = t.author := by
  intro t ht
  unfold extractBatch at *
  obtain ⟨p, hp, hpt⟩ := List.mem_map.mp ht
  refine ⟨⟨p.2.id, now2 - p.1, p.2.links, p.2.author, p.2.conversationId,
    p.2.images, p.2.videos, p.2.gifs⟩, List.mem_map_of_mem _ hp, ?_⟩
  rw [← hpt]
  exact ⟨rfl, rfl, rfl⟩

theorem collectSetPhase_extract (env : Env) (now now2 : Int) :
    collectSetPhase env (extractBatch now env.batch)
      = collectSetPhase env (extractBatch now2 env.batch) := by
  unfold collectSetPhase extractBatch
  rw [List.foldl_map, List.foldl_map]

/-- Claim C1 (amended): a second run of the whole pipeline over an
unchanged remote feed (the same deterministic environment, with
non-failing inserts) adds zero rows to the store — insertedCount is 0,
the tweets, links, media and thread_tweets tables keep their sizes (the
media and links tables are unchanged outright) — every extracted post of
the second run is filtered out by the tweetExists check (each already
exists in the store), and the second run's media queue is empty: media
is queued only for newly inserted posts, so no tuple even reaches the
mediaExists check. -/
theorem idempotent_rerun (env : Env) (now1 now2 : Int) (s0 : Store)
    (hins : ∀ id, env.insertFail id = none)
    (hkeys : ThreadKeysUnique s0) :
    (runPipeline env now2 (runPipeline env now1 s0).1).2 = 0
    ∧ (runPipeline env now2 (runPipeline env now1 s0).1).1.tweets.length
        = (runPipeline env now1 s0).1.tweets.length
    ∧ (runPipeline env now2 (runPipeline env now1 s0).1).1.media
        = (runPipeline env now1 s0).1.media
    ∧ (runPipeline env now2 (runPipeline env now1 s0).1).1.links
        = (runPipeline env now1 s0).1.links
    ∧ (runPipeline env now2 (runPipeline env now1 s0).1).1.threadTweets.length
        = (runPipeline env now1 s0).1.threadTweets.length
    ∧ (∀ t ∈ extractBatch now2 env.batch, t.id ≠ "" →
        tweetExists (runPipeline env now1 s0).1 t.id = true)
    ∧ mediaQueue
        (insertPhase env (extractBatch now2 env.batch)
          (runPipeline env now1 s0).1).2.2
        (extractBatch now2 env.batch) = [] := by
  set s1 := (runPipeline env now1 s0).1 with hs1def
  set ts2 := extractBatch now2 env.batch with hts2def
  have hB1 : ∀ t ∈ ts2, t.id ≠ "" → tweetExists s1 t.id = true := by
    intro t ht hid
    obtain ⟨t1, ht1, hid1, _, _⟩ := extractBatch_fields now2 now1 env.batch t ht
    rw [← hid1]
    exact runPipeline_batch_exist env now1 s0 hins t1 ht1 (by rw [hid1]; exact hid)
  have hIns : insertPhase env ts2 s1 = (s1, 0, []) := insertPhase_noop env ts2 s1 hB1
  have hcs : collectSetPhase env ts2
      = collectSetPhase env (extractBatch now1 env.batch) :=
    collectSetPhase_extract env now2 now1
  have hSettle : ∀ r ∈ collectSetPhase env ts2,
      tweetExists s1 r = true ∨ env.fetch r = none
      ∨ ∃ raw, env.fetch r = some raw ∧ tweetExists s1 raw.id = true := by
    intro r hr
    rw [hcs] at hr
    exact runPipeline_settled env now1 s0 r hr
  have hFetch1 : (threadFetchPhase env now2 (collectSetPhase env ts2) s1).1 = s1 := by
    unfold threadFetchPhase
    exact threadFetchGo_noop env now2 _ _ s1 [] hSettle
  have hCol : ∀ x ∈ (threadFetchPhase env now2 (collectSetPhase env ts2) s1).2,
      tweetExists s1 x = true := by
    intro x hx
    have h2 : tweetExists
        (threadFetchPhase env now2 (collectSetPhase env ts2) s1).1 x = true := by
      unfold threadFetchPhase at hx ⊢
      exact threadFetchGo_collected env now2 _ _ s1 [] (by simp) x hx
    rw [hFetch1] at h2
    exact h2
  set col2 := (threadFetchPhase env now2 (collectSetPhase env ts2) s1).2 with hcol2def
  have hu1 : ThreadKeysUnique s1 := runPipeline_unique env now1 s0 hkeys
  have hw : ∀ t ∈ ts2, relDecision env col2 s1 t = true →
      ∀ m ∈ membersOf env t, hasKey s1 t.id m = true := by
    intro t ht hd m hm
    obtain ⟨hg, hcf, hlen, hall⟩ := (relDecision_true_iff env col2 s1 t).mp hd
    have hexm : ∀ m2 ∈ membersOf env t, tweetExists s1 m2 = true := by
      intro m2 hm2
      have hb := hall m2 hm2
      rw [Bool.or_eq_true] at hb
      rcases hb with hc1 | hc2
      · exact hCol m2 (by simpa using hc1)
      · exact hc2
    obtain ⟨t1, ht1, hid1, hc1, ha1⟩ := extractBatch_fields now2 now1 env.batch t ht
    have hmem : membersOf env t1 = membersOf env t := membersOf_congr env t1 t hc1 ha1
    have hk := runPipeline_keys env now1 s0 t1 ht1
      (by rw [hc1, ha1]; exact hg)
      (by rw [hc1]; exact hcf)
      (by rw [hmem]; exact hlen)
      (by rw [hmem]; exact hexm)
      m (by rw [hmem]; exact hm)
    rw [← hid1]
    exact hk
  obtain ⟨hr1, hr2, hr3, hr4⟩ := threadRelPhase_preserving env col2 ts2 s1 hu1 hw
  rw [runPipeline_eq env now2 s1]
  rw [hIns]
  simp only
  rw [hFetch1]
  rw [mediaQueue_nil]
  exact ⟨by trivial, hr4, hr2, hr3, hr1, hB1, by trivial⟩

/-- Witness for C1 on a concrete feed of one post with one image: both
hypotheses hold and the second run adds nothing. -/
theorem idempotent_rerun_witness :
    (∀ id, (simpleEnv [⟨"7", [], "A @a", "7", ["mU"], [], []⟩]).insertFail id = none)
    ∧ ThreadKeysUnique emptyStore
    ∧ (runPipeline (simpleEnv [⟨"7", [], "A @a", "7", ["mU"], [], []⟩]) 200
        (runPipeline (simpleEnv [⟨"7", [], "A @a", "7", ["mU"], [], []⟩]) 100
          emptyStore).1).2 = 0 :=
  ⟨fun _ => rfl, by simp [ThreadKeysUnique, emptyStore],
   (idempotent_rerun (simpleEnv [⟨"7", [], "A @a", "7", ["mU"], [], []⟩]) 100 200
     emptyStore (fun _ => rfl) (by simp [ThreadKeysUnique, emptyStore])).1⟩

/-- Claim C1 (counterexample to the stated media mechanism): on the
second run over the unchanged one-post feed with one image, the media
queue is empty even though the feed still carries the media tuple and
the store already holds its row — so no media tuple is filtered by the
mediaExists check on the re-run (it is filtered upstream by the
new-tweets gate); the claim attributes the media dedup of the re-run to
existsMedia, which is never consulted. -/
theorem rerun_media_queue_empty :
    mediaQueue
      (insertPhase (simpleEnv [⟨"7", [], "A @a", "7", ["mU"], [], []⟩])
        (extractBatch 200 [⟨"7", [], "A @a", "7", ["mU"], [], []⟩])
        (runPipeline (simpleEnv [⟨"7", [], "A @a", "7", ["mU"], [], []⟩]) 100
          emptyStore).1).2.2
      (extractBatch 200 [⟨"7", [], "A @a", "7", ["mU"], [], []⟩]) = []
    ∧ mediaExists
        (runPipeline (simpleEnv [⟨"7", [], "A @a", "7", ["mU"], [], []⟩]) 100
          emptyStore).1 "7" "mU" = true
    ∧ (⟨"7", [], "A @a", "7", ["mU"], [], []⟩ : RawPost).images ≠ [] := by
  refine ⟨by decide, by decide, by decide⟩

end TwitDB
